import Mathlib

/-!
Verification development for `scripts/man_pages.py` (openzfs-docs).

The script is embedded shallowly: Python strings become `List Char`,
the filesystem becomes an explicit state (`Fs`) of written files and
created directories, the external renderer (`mandoc`) becomes a
function parameter, and exceptions become `Except` values carrying the
filesystem state at the moment of the raise.

The cross-reference rewriting of `add_hyperlinks` uses the compiled
regular expression

  `<a(?P<href_place> )class="Xr"(?P<title>.*?)>(?P<name>N1|N2|...)\((?P<num>[1-9])\)</a>`

with replacement

  `<a href="../\g<num>/\g<name>.\g<num>.html" class="Xr">\g<name>(\g<num>)</a>`.

The engine below models Python's leftmost, non-overlapping scan of
`re.sub`, the lazy `.*?` title group (shortest title first, a title
character is any character except a newline), and the ordered
alternation of the page names.  Inside a name alternative the only
regex metacharacter that can arise from a man-page file name is `.`,
which matches any character except a newline; every other character of
a name taken from the alphabet `[A-Za-z0-9_.-]` is matched literally,
exactly as Python does.
-/

namespace ManPages

/-- Python strings are modelled as lists of characters. -/
abbrev Str := List Char

/-- Shorthand turning a Lean string literal into the model type. -/
def str (s : String) : Str := s.data

/-- Strip an exact literal from the front of a string, returning the rest. -/
def stripLit : Str → Str → Option Str
  | [], s => some s
  | _ :: _, [] => none
  | lc :: ls, c :: s => if c = lc then stripLit ls s else none

/-- The fixed leading literal of the cross-reference pattern:
`<a` followed by the single space captured by `href_place` and `class="Xr"`. -/
def litXr : Str := str "<a class=\"Xr\""

/-- One pattern character of a page-name alternative: `.` is the regex
wildcard (any character except a newline), every other character is literal. -/
def charMatch (pc c : Char) : Bool :=
  if pc = '.' then c ≠ '\n' else c = pc

/-- Match a page-name alternative against the front of the input,
consuming exactly `pat.length` characters. -/
def nameMatch : Str → Str → Option Str
  | [], s => some s
  | _ :: _, [] => none
  | pc :: ps, c :: s => if charMatch pc c then nameMatch ps s else none

/-- The section digit class `[1-9]` of the pattern. -/
def isDigit19 (c : Char) : Bool := c ∈ str "123456789"

/-- Try one name alternative at the position just after the title's `>`:
the name, then the literal `(`, a digit `1`-`9`, and the literal `)</a>`.
Returns the matched name text, the digit and the remaining input. -/
def tryAlt (n : Str) (s : Str) : Option (Str × Char × Str) :=
  match nameMatch n s with
  | none => none
  | some r1 =>
    match r1 with
    | c1 :: d :: r2 =>
      if c1 = '(' then
        if isDigit19 d then
          match stripLit (str ")</a>") r2 with
          | some r3 => some (s.take n.length, d, r3)
          | none => none
        else none
      else none
    | _ => none

/-- Ordered alternation over the name alternatives, as Python tries them. -/
def tryAlts : List Str → Str → Option (Str × Char × Str)
  | [], _ => none
  | n :: ns, s =>
    match tryAlt n s with
    | some res => some res
    | none => tryAlts ns s

/-- The lazy title scan of `(?P<title>.*?)>`: at each position first try to
close the title with `>` and match a name alternative; on failure absorb one
more (non-newline) character into the title. -/
def titleScan (alts : List Str) : Str → Option (Str × Char × Str)
  | [] => none
  | c :: s =>
    if c = '>' then
      match tryAlts alts s with
      | some res => some res
      | none => titleScan alts s
    else if c = '\n' then none
    else titleScan alts s

/-- Python's `"|".join(all_pages)`: an empty page list yields the pattern
`(?P<name>)` whose single alternative is the empty string. -/
def altsOf (ap : List Str) : List Str := if ap = [] then [[]] else ap

/-- Attempt to match the whole compiled pattern at the start of `s`. -/
def matchAt (ap : List Str) (s : Str) : Option (Str × Char × Str) :=
  match stripLit litXr s with
  | none => none
  | some r => titleScan (altsOf ap) r

/-- The expanded replacement template `final_regex`:
`<a href="../N/NAME.N.html" class="Xr">NAME(N)</a>`. -/
def replText (nm : Str) (d : Char) : Str :=
  str "<a href=\"../" ++ [d] ++ str "/" ++ nm ++ str "." ++ [d] ++
    str ".html\" class=\"Xr\">" ++ nm ++ str "(" ++ [d] ++ str ")</a>"

/-- Fuelled scan of `re.sub`: leftmost match, replace, continue after the
match; a position with no match copies one character. -/
def subTextF (ap : List Str) : Nat → Str → Str
  | 0, s => s
  | fuel + 1, s =>
    match matchAt ap s with
    | some (nm, d, r) => replText nm d ++ subTextF ap fuel r
    | none =>
      match s with
      | [] => []
      | c :: s2 => c :: subTextF ap fuel s2

/-- `re.sub(html_regex, final_regex, text)`: every scan step consumes at
least one character, so `text.length` fuel always suffices. -/
def subText (ap : List Str) (s : Str) : Str := subTextF ap s.length s

/-- Python `str.replace(pat, rep)` (all non-overlapping occurrences,
left to right), fuelled form. -/
def pyReplaceF (pat rep : Str) : Nat → Str → Str
  | 0, s => s
  | _ + 1, [] => []
  | fuel + 1, c :: s =>
    match stripLit pat (c :: s) with
    | some r => rep ++ pyReplaceF pat rep fuel r
    | none => c :: pyReplaceF pat rep fuel s

/-- Python `str.replace(pat, rep)` for a non-empty `pat`. -/
def pyReplace (pat rep s : Str) : Str := pyReplaceF pat rep s.length s

/-- Python `str.rstrip(chars)`: remove trailing characters belonging to the
character set `chars`. -/
def pyRstrip (chars s : Str) : Str :=
  ((s.reverse).dropWhile (fun c => c ∈ chars)).reverse

/-- The base-name part of `os.path.splitext`: split at the last dot unless
every character before it is itself a dot. -/
def splitextBase (s : Str) : Str :=
  match (s.reverse).findIdx? (fun c => c = '.') with
  | none => s
  | some k =>
    let i := s.length - 1 - k
    if (s.take i).any (fun c => c ≠ '.') then s.take i else s

/-- `os.path.join` for the relative paths the script builds. -/
def joinP (a b : Str) : Str := a ++ '/' :: b

/-- The static `man_sections` table of the script. -/
def manSections : List (Str × Str) :=
  [ (str "1", str "User Commands"),
    (str "2", str "System Calls"),
    (str "3", str "C Library Functions"),
    (str "4", str "Devices and Special Files"),
    (str "5", str "File Formats and Conventions"),
    (str "6", str "Games"),
    (str "7", str "Miscellaneous"),
    (str "8", str "System Administration Commands") ]

/-- The recognized section codes (the keys of `man_sections`). -/
def sectionCodes : List Str := manSections.map Prod.fst

/-- Title lookup `man_sections[code]` (total on recognized codes). -/
def sectionTitle (c : Str) : Str :=
  ((manSections.find? (fun e => e.1 = c)).map (fun e => e.2)).getD []

/-- The literal `zfs_repo_url`. -/
def zfsRepoUrl : Str := str "https://github.com/openzfs/zfs/"

/-- The literal `build_dir = '_build/man'`. -/
def buildDirS : Str := str "_build/man"

/-- The literal `man_section_dir = 'man'`. -/
def manDirS : Str := str "man"

/-- The literal `man_section_name = 'Man Pages'`. -/
def manSectionName : Str := str "Man Pages"

/-- Output filesystem state: files written (newer entries first, so a read
finds the most recent write) and directories created with `os.makedirs`. -/
structure Fs where
  files : List (Str × Str)
  dirs : List Str
deriving DecidableEq

/-- Open a file for writing and write `c` (truncating any previous content). -/
def writeF (p c : Str) (fs : Fs) : Fs := ⟨(p, c) :: fs.files, fs.dirs⟩

/-- `os.makedirs(p, exist_ok=True)`. -/
def mkdirF (p : Str) (fs : Fs) : Fs := ⟨fs.files, p :: fs.dirs⟩

/-- Open a file for reading: the most recently written content, if any. -/
def readFs (fs : Fs) (p : Str) : Option Str :=
  (fs.files.find? (fun e => e.1 = p)).map (fun e => e.2)

instance {ε α : Type} [DecidableEq ε] [DecidableEq α] : DecidableEq (Except ε α) := fun x y =>
  match x, y with
  | .ok a, .ok b =>
    if h : a = b then isTrue (by rw [h]) else isFalse (fun hh => by cases hh; exact h rfl)
  | .error a, .error b =>
    if h : a = b then isTrue (by rw [h]) else isFalse (fun hh => by cases hh; exact h rfl)
  | .ok _, .error _ => isFalse (fun hh => by cases hh)
  | .error _, .ok _ => isFalse (fun hh => by cases hh)

/-- The input tree: the immediate subdirectory names yielded by the first
step of `os.walk`, and the `os.listdir` contents of each subdirectory. -/
structure SrcTree where
  dirs : List Str
  files : Str → List Str

/-- The external renderer (`mandoc -T html -O fragment <path>`), as a
function from the source-file path to its standard output; `none` models a
non-zero exit status. -/
abbrev Rend := Str → Option Str

/-- The page registry `pages`: section code ↦ discovered page names. -/
abbrev Registry := List (Str × List Str)

/-- `pages = {num: [] for num in man_sections}` in key order. -/
def initReg : Registry := sectionCodes.map (fun c => (c, []))

/-- Append discovered pages to the list of section `sec`. -/
def regAppend (reg : Registry) (sec : Str) (ps : List Str) : Registry :=
  reg.map (fun e => if e.1 = sec then (e.1, e.2 ++ ps) else e)

/-- Dictionary lookup on the registry. -/
def regLookup (reg : Registry) (sec : Str) : Option (List Str) :=
  (reg.find? (fun e => e.1 = sec)).map (fun e => e.2)

/-- `all_pages`: the base names of every page across all sections, in
registry order, as assembled at the top of `add_hyperlinks`. -/
def allPages (reg : Registry) : List Str :=
  reg.foldl (fun acc e => acc ++ e.2.map splitextBase) []

/-- `page.rstrip('.in')`. -/
def strippedName (page : Str) : Str := pyRstrip (str ".in") page

/-- `section.replace('man', '')`. -/
def recognizedCode (d : Str) : Str := pyReplace (str "man") [] d

/-- Does a file name match `.<num>` or `.<num>.in`? -/
def pageMatches (num page : Str) : Bool :=
  ('.' :: num).isSuffixOf page || (('.' :: num) ++ str ".in").isSuffixOf page

/-- The inner loop over `os.listdir`: render each matching page into the
section's fragment directory, collecting the stripped page names; a renderer
failure propagates as an exception carrying the state at the raise (the
output file has been opened, hence created, before the subprocess runs). -/
def pageLoop (rend : Rend) (inDir d outSecDir : Str) (num : Str) :
    List Str → Fs → List Str → Except Fs (Fs × List Str)
  | [], fs, acc => .ok (fs, acc)
  | page :: rest, fs, acc =>
    if pageMatches num page then
      let sp := strippedName page
      let pageFile := joinP outSecDir (sp ++ str ".html")
      match rend (joinP (joinP inDir d) page) with
      | some out =>
        pageLoop rend inDir d outSecDir num rest (writeF pageFile out fs) (acc ++ [sp])
      | none => .error (writeF pageFile [] fs)
    else pageLoop rend inDir d outSecDir num rest fs acc

/-- The outer loop over the immediate subdirectories (`os.walk` + `break`):
a directory is processed when deleting every occurrence of `man` from its
name yields a recognized section code. -/
def dirLoop (rend : Rend) (tree : SrcTree) (inDir outDir : Str) :
    List Str → Registry → Fs → Except Fs (Registry × Fs)
  | [], reg, fs => .ok (reg, fs)
  | d :: rest, reg, fs =>
    let num := recognizedCode d
    if num ∈ sectionCodes then
      let outSecDir := joinP (joinP outDir buildDirS) d
      let fs1 := mkdirF outSecDir fs
      match pageLoop rend inDir d outSecDir num (tree.files d) fs1 [] with
      | .error e => .error e
      | .ok (fs2, newPs) =>
        dirLoop rend tree inDir outDir rest (regAppend reg num newPs) fs2
    else dirLoop rend tree inDir outDir rest reg fs

/-- A line of `=` of the given length (`"=" * len(...)`). -/
def eqLine (n : Nat) : Str := List.replicate n '='

/-- The generated `man/index.rst` content. -/
def topIndexContent : Str :=
  str ".. THIS FILE IS AUTOGENERATED, DO NOT EDIT!\n\n:github_url: " ++
    zfsRepoUrl ++ str "blob/master/man/\n\n" ++ manSectionName ++ str "\n" ++
    eqLine manSectionName.length ++
    str "\n.. toctree::\n    :maxdepth: 1\n    :glob:\n\n    */index\n            "

/-- The generated `man/<sec>/index.rst` content. -/
def sectionIndexContent (sec : Str) : Str :=
  let nameWithNum := sectionTitle sec ++ str " (" ++ sec ++ str ")"
  str ".. THIS FILE IS AUTOGENERATED, DO NOT EDIT!\n\n:github_url: " ++
    zfsRepoUrl ++ str "blob/master/man/man" ++ sec ++ str "/\n\n" ++
    nameWithNum ++ str "\n" ++ eqLine nameWithNum.length ++
    str "\n.. toctree::\n    :maxdepth: 1\n    :glob:\n\n    *\n                "

/-- The generated `man/<sec>/<page>.rst` stub content. -/
def stubContent (sec page : Str) : Str :=
  str ".. THIS FILE IS AUTOGENERATED, DO NOT EDIT!\n\n:github_url: " ++
    zfsRepoUrl ++ str "blob/master/man/man" ++ sec ++ str "/" ++ page ++
    str "\n\n" ++ page ++ str "\n" ++ eqLine page.length ++
    str "\n.. raw:: html\n\n   <div class=\"man_container\">\n\n.. raw:: html\n   :file: ../../" ++
    buildDirS ++ str "/man" ++ sec ++ str "/" ++ page ++
    str ".html\n\n.. raw:: html\n\n   </div>\n                    "

/-- Write the per-page stub documents of one section. -/
def writeStubs (outDir sec : Str) : List Str → Fs → Fs
  | [], fs => fs
  | page :: ps, fs =>
    writeStubs outDir sec ps
      (writeF (joinP (joinP (joinP outDir manDirS) sec) (page ++ str ".rst"))
        (stubContent sec page) fs)

/-- Emit one section of the rst tree: nothing when the section has no
discovered pages, otherwise its directory, its index and its stubs. -/
def writeSection (outDir : Str) (fs : Fs) (e : Str × List Str) : Fs :=
  if e.2 = [] then fs
  else
    let rstDir := joinP (joinP outDir manDirS) e.1
    let fs1 := mkdirF rstDir fs
    let fs2 := writeF (joinP rstDir (str "index.rst")) (sectionIndexContent e.1) fs1
    writeStubs outDir e.1 e.2 fs2

/-- The `for section_num, section_pages in pages.items()` loop. -/
def writeSections (outDir : Str) : Registry → Fs → Fs
  | [], fs => fs
  | e :: es, fs => writeSections outDir es (writeSection outDir fs e)

/-- The fragment path read and rewritten by `add_hyperlinks`:
`<out>/_build/man/man<sec>/<page>.html`. -/
def fragPath (outDir sec page : Str) : Str :=
  joinP (joinP (joinP outDir buildDirS) (str "man" ++ sec)) (page ++ str ".html")

/-- One file of the hyperlink pass: read, substitute, and rewrite only when
the content changed; a missing file is a raised `FileNotFoundError`. -/
def hyperFile (outDir : Str) (ap : List Str) (sec : Str) (fs : Fs) (page : Str) :
    Except Fs Fs :=
  let p := fragPath outDir sec page
  match readFs fs p with
  | none => .error fs
  | some text =>
    let newText := subText ap text
    if newText = text then .ok fs else .ok (writeF p newText fs)

/-- The hyperlink pass over the pages of one section. -/
def hyperPages (outDir : Str) (ap : List Str) (sec : Str) :
    List Str → Fs → Except Fs Fs
  | [], fs => .ok fs
  | page :: ps, fs =>
    match hyperFile outDir ap sec fs page with
    | .error e => .error e
    | .ok fs1 => hyperPages outDir ap sec ps fs1

/-- The hyperlink pass over all sections of the registry. -/
def hyperSections (outDir : Str) (ap : List Str) :
    Registry → Fs → Except Fs Fs
  | [], fs => .ok fs
  | e :: es, fs =>
    match hyperPages outDir ap e.1 e.2 fs with
    | .error x => .error x
    | .ok fs1 => hyperSections outDir ap es fs1

/-- `add_hyperlinks(out_dir, pages)`. -/
def addHyperlinksFs (outDir : Str) (reg : Registry) (fs : Fs) : Except Fs Fs :=
  hyperSections outDir (allPages reg) reg fs

/-- `run(in_dir, out_dir)`: discovery and rendering, the top-level index,
the per-section indexes and stubs, then the hyperlink pass. -/
def run (rend : Rend) (tree : SrcTree) (inDir outDir : Str) (fs : Fs) :
    Except Fs Fs :=
  match dirLoop rend tree inDir outDir tree.dirs initReg fs with
  | .error e => .error e
  | .ok (reg, fs1) =>
    let manPath := joinP outDir manDirS
    let fs2 := mkdirF manPath fs1
    let fs3 := writeF (joinP manPath (str "index.rst")) topIndexContent fs2
    let fs4 := writeSections outDir reg fs3
    addHyperlinksFs outDir reg fs4

/-! ### Auxiliary notions used by the statements -/

/-- The man-page file-name alphabet on which the textual pattern is exact:
letters, digits, `-` and `_`.  Such characters are regex-literal, and in
particular none of them is `.`, `(`, `)`, `<`, `>`, `/` or a newline. -/
def plainChar (c : Char) : Bool :=
  c.isAlpha || c.isDigit || c = '-' || c = '_'

/-- A string over the plain alphabet. -/
def plainStr (s : Str) : Bool := s.all plainChar

/-- The shape in which the renderer emits an unresolved cross reference:
`<a class="Xr"TITLE>NAME(D)</a>`. -/
def anchorXr (t nm : Str) (d : Char) : Str :=
  litXr ++ t ++ '>' :: (nm ++ '(' :: d :: str ")</a>")

/-- All fragment-file paths visited by the hyperlink pass, in visit order. -/
def fragPaths (outDir : Str) : Registry → List Str
  | [] => []
  | e :: es => e.2.map (fragPath outDir e.1) ++ fragPaths outDir es

/-- Did `run` finish without raising? -/
def isOk (r : Except Fs Fs) : Bool :=
  match r with
  | .ok _ => true
  | .error _ => false

/-- Is the given path readable in the final state of a successful run? -/
def readIsSome (r : Except Fs Fs) (p : Str) : Bool :=
  match r with
  | .ok fs => (readFs fs p).isSome
  | .error _ => false

/-- The directories created, whether or not the run raised. -/
def runDirs (r : Except Fs Fs) : List Str :=
  match r with
  | .ok fs => fs.dirs
  | .error fs => fs.dirs

/-- The pages registered under a section by a completed discovery walk. -/
def dirLoopPages (r : Except Fs (Registry × Fs)) (sec : Str) : Option (List Str) :=
  match r with
  | .ok (reg, _) => regLookup reg sec
  | .error _ => none

/-- The directories created by the discovery walk. -/
def dirLoopDirs (r : Except Fs (Registry × Fs)) : List Str :=
  match r with
  | .ok (_, fs) => fs.dirs
  | .error fs => fs.dirs

/-! ### Concrete scenarios used by witnesses and counterexamples -/

/-- A total renderer whose output records the source path. -/
def rendEcho : Rend := fun p => some (str "<p>man page " ++ p ++ str "</p>")

/-- The spec's scenario tree, extended with a `.in`-suffixed page:
`man1/ls.1`, `man8/zpool.8` and `man8/foo.8.in`. -/
def c3Tree : SrcTree :=
  ⟨[str "man1", str "man8"],
   fun d =>
     if d = str "man1" then [str "ls.1"]
     else if d = str "man8" then [str "zpool.8", str "foo.8.in"]
     else []⟩

/-- The spec scenario, run on an empty output state. -/
def c3Run : Except Fs Fs := run rendEcho c3Tree (str "in") (str "out") ⟨[], []⟩

/-- A renderer failing on `in/man8/a.8` only. -/
def c2Rend : Rend :=
  fun p => if p = str "in/man8/a.8" then none else some (str "X")

/-- A tree whose section 8 holds the failing page `a.8` then `b.8`. -/
def c2Tree : SrcTree :=
  ⟨[str "man8"], fun d => if d = str "man8" then [str "a.8", str "b.8"] else []⟩

/-- The failing run of claim C2's concrete part. -/
def c2Run : Except Fs Fs := run c2Rend c2Tree (str "in") (str "out") ⟨[], []⟩

/-- A tree with the single subdirectory `man8man` holding `x.8`. -/
def c4Tree : SrcTree :=
  ⟨[str "man8man"], fun d => if d = str "man8man" then [str "x.8"] else []⟩

/-- The discovery walk over `man8man`. -/
def c4Walk : Except Fs (Registry × Fs) :=
  dirLoop rendEcho c4Tree (str "in") (str "out") c4Tree.dirs initReg ⟨[], []⟩

/-- A tree whose only subdirectory `man3` contains no matching page. -/
def c5Tree : SrcTree :=
  ⟨[str "man3"], fun d => if d = str "man3" then [str "README"] else []⟩

/-- The run over the empty section 3. -/
def c5Run : Except Fs Fs := run rendEcho c5Tree (str "in") (str "out") ⟨[], []⟩

/-- The discovery walk of the empty-section scenario. -/
def c5Walk : Except Fs (Registry × Fs) :=
  dirLoop rendEcho c5Tree (str "in") (str "out") c5Tree.dirs initReg ⟨[], []⟩

/-- A registry holding `zpool` under section 8 only. -/
def c1Reg : Registry := regAppend initReg (str "8") [str "zpool.8"]

/-- A registry holding the page `a.b.8`, whose base name `a.b` contains the
regex metacharacter `.`. -/
def c8Reg : Registry := regAppend initReg (str "8") [str "a.b.8"]

/-- A registry holding `ls` under section 1 only. -/
def c9Reg : Registry := regAppend initReg (str "1") [str "ls.1"]

/-- Registry for the C6 witness: two pages in section 8. -/
def c6Reg : Registry := regAppend initReg (str "8") [str "zpool.8", str "zdb.8"]

/-- Initial state for the C6 witness: `zpool.8.html` holds a rewritable
cross reference, `zdb.8.html` holds none. -/
def c6Fs : Fs :=
  ⟨[(fragPath (str "out") (str "8") (str "zpool.8"),
      str "<p>see <a class=\"Xr\">zdb(8)</a></p>"),
    (fragPath (str "out") (str "8") (str "zdb.8"), str "<p>plain</p>")], []⟩

/-- Result state of the hyperlink pass in the C6 witness. -/
def c6Fs' : Fs :=
  match addHyperlinksFs (str "out") c6Reg c6Fs with
  | .ok fs => fs
  | .error fs => fs

/-- Renderers and tree for the C7 witness: `zpool.8` cites `zfs(8)` and
vice versa. -/
def c7Rend : Rend := fun p =>
  if p = str "in/man8/zpool.8" then some (str "<p>see <a class=\"Xr\">zfs(8)</a></p>")
  else some (str "<p>see <a class=\"Xr\">zpool(8)</a></p>")

/-- Tree for the C7 witness. -/
def c7Tree : SrcTree :=
  ⟨[str "man8"], fun d => if d = str "man8" then [str "zpool.8", str "zfs.8"] else []⟩

/-- First run of the C7 witness. -/
def c7Fs1 : Fs :=
  match run c7Rend c7Tree (str "in") (str "out") ⟨[], []⟩ with
  | .ok fs => fs
  | .error fs => fs

/-- Second run of the C7 witness, on the output of the first. -/
def c7Fs2 : Fs :=
  match run c7Rend c7Tree (str "in") (str "out") c7Fs1 with
  | .ok fs => fs
  | .error fs => fs

/-! ### Basic lemmas about the matching engine -/

theorem stripLit_self_append (l s : Str) : stripLit l (l ++ s) = some s := by
  induction l with
  | nil => rfl
  | cons c cs ih => simp [stripLit, ih]

theorem stripLit_eq_some {l : Str} : ∀ {s r : Str}, stripLit l s = some r → s = l ++ r := by
  induction l with
  | nil =>
    intro s r h
    simp only [stripLit, Option.some.injEq] at h
    simp [h]
  | cons lc ls ih =>
    intro s r h
    cases s with
    | nil => simp [stripLit] at h
    | cons c s2 =>
      simp only [stripLit] at h
      by_cases hc : c = lc
      · rw [if_pos hc] at h
        have := ih h
        simp [hc, this]
      · rw [if_neg hc] at h
        exact absurd h (by simp)

theorem nameMatch_eq_some {p : Str} :
    ∀ {s r : Str}, nameMatch p s = some r → s.length = p.length + r.length := by
  induction p with
  | nil =>
    intro s r h
    simp only [nameMatch, Option.some.injEq] at h
    simp [h]
  | cons pc ps ih =>
    intro s r h
    cases s with
    | nil => simp [nameMatch] at h
    | cons c s2 =>
      simp only [nameMatch] at h
      by_cases hc : charMatch pc c = true
      · rw [if_pos hc] at h
        have := ih h
        simp [this]
        omega
      · rw [if_neg hc] at h
        exact absurd h (by simp)

theorem tryAlt_length {n s nm : Str} {d : Char} {r : Str}
    (h : tryAlt n s = some (nm, d, r)) : r.length < s.length := by
  unfold tryAlt at h
  cases hnm : nameMatch n s with
  | none => rw [hnm] at h; exact absurd h (by simp)
  | some r1 =>
    rw [hnm] at h
    have hl1 := nameMatch_eq_some hnm
    match r1, h with
    | c1 :: d2 :: r2, h =>
      dsimp only at h
      rw [show ((c1 :: d2 :: r2).length = r2.length + 2) by simp] at hl1
      by_cases h1 : c1 = '('
      · rw [if_pos h1] at h
        by_cases h2 : isDigit19 d2 = true
        · rw [if_pos h2] at h
          cases hs : stripLit (str ")</a>") r2 with
          | none => rw [hs] at h; exact absurd h (by simp)
          | some r3 =>
            rw [hs] at h
            have h5 := stripLit_eq_some hs
            simp only [Option.some.injEq, Prod.mk.injEq] at h
            obtain ⟨-, -, hr⟩ := h
            subst hr
            have h6 : r2.length = (str ")</a>").length + r3.length := by rw [h5]; simp
            have h7 : (str ")</a>").length = 5 := rfl
            omega
        · rw [if_neg h2] at h; exact absurd h (by simp)
      · rw [if_neg h1] at h; exact absurd h (by simp)

theorem tryAlts_length {alts : List Str} {s nm : Str} {d : Char} {r : Str}
    (h : tryAlts alts s = some (nm, d, r)) : r.length < s.length := by
  induction alts with
  | nil => exact absurd h (by simp [tryAlts])
  | cons n ns ih =>
    simp only [tryAlts] at h
    cases ha : tryAlt n s with
    | some res =>
      rw [ha] at h
      simp only [Option.some.injEq] at h
      subst h
      exact tryAlt_length ha
    | none => rw [ha] at h; exact ih h

theorem titleScan_length {alts : List Str} {nm : Str} {d : Char} :
    ∀ {s r : Str}, titleScan alts s = some (nm, d, r) → r.length < s.length := by
  intro s
  induction s with
  | nil => intro r h; exact absurd h (by simp [titleScan])
  | cons c s2 ih =>
    intro r h
    simp only [titleScan] at h
    by_cases hgt : c = '>'
    · rw [if_pos hgt] at h
      cases ha : tryAlts alts s2 with
      | some res =>
        rw [ha] at h
        simp only [Option.some.injEq] at h
        subst h
        have := tryAlts_length ha
        simp
        omega
      | none =>
        rw [ha] at h
        have := ih h
        simp
        omega
    · rw [if_neg hgt] at h
      by_cases hnl : c = '\n'
      · rw [if_pos hnl] at h; exact absurd h (by simp)
      · rw [if_neg hnl] at h
        have := ih h
        simp
        omega

theorem matchAt_length {ap : List Str} {s nm : Str} {d : Char} {r : Str}
    (h : matchAt ap s = some (nm, d, r)) : r.length < s.length := by
  unfold matchAt at h
  cases hs : stripLit litXr s with
  | none => rw [hs] at h; exact absurd h (by simp)
  | some r0 =>
    rw [hs] at h
    have h1 := titleScan_length h
    have h2 := stripLit_eq_some hs
    have : s.length = litXr.length + r0.length := by rw [h2]; simp
    omega

theorem matchAt_nil (ap : List Str) : matchAt ap [] = none := rfl

theorem subTextF_nil (ap : List Str) : ∀ f, subTextF ap f [] = [] := by
  intro f
  cases f with
  | zero => rfl
  | succ g => simp [subTextF, matchAt_nil]

theorem subTextF_congr (ap : List Str) :
    ∀ f g s, s.length ≤ f → s.length ≤ g → subTextF ap f s = subTextF ap g s := by
  intro f
  induction f with
  | zero =>
    intro g s hf _
    have : s = [] := List.eq_nil_of_length_eq_zero (Nat.le_zero.mp hf)
    subst this
    rw [subTextF_nil, subTextF_nil]
  | succ f ih =>
    intro g s hf hg
    cases g with
    | zero =>
      have : s = [] := List.eq_nil_of_length_eq_zero (Nat.le_zero.mp hg)
      subst this
      rw [subTextF_nil, subTextF_nil]
    | succ g =>
      simp only [subTextF]
      cases hm : matchAt ap s with
      | some res =>
        obtain ⟨nm, d, r⟩ := res
        have hl := matchAt_length hm
        show replText nm d ++ subTextF ap f r = replText nm d ++ subTextF ap g r
        rw [ih g r (by omega) (by omega)]
      | none =>
        cases s with
        | nil => rfl
        | cons c s2 =>
          have h1 : s2.length + 1 ≤ f + 1 := by simpa using hf
          have h2 : s2.length + 1 ≤ g + 1 := by simpa using hg
          show c :: subTextF ap f s2 = c :: subTextF ap g s2
          rw [ih g s2 (by omega) (by omega)]

theorem subText_nil (ap : List Str) : subText ap [] = [] := rfl

theorem subText_match {ap : List Str} {s nm : Str} {d : Char} {r : Str}
    (h : matchAt ap s = some (nm, d, r)) :
    subText ap s = replText nm d ++ subText ap r := by
  have hl := matchAt_length h
  cases s with
  | nil => exact absurd h (by simp [matchAt_nil])
  | cons c s2 =>
    show subTextF ap (s2.length + 1) (c :: s2) = _
    simp only [subTextF, h]
    rw [subTextF_congr ap s2.length r.length r (by simp at hl; omega) (le_refl _)]
    rfl

theorem subText_cons_nomatch {ap : List Str} {c : Char} {s : Str}
    (h : matchAt ap (c :: s) = none) :
    subText ap (c :: s) = c :: subText ap s := by
  show subTextF ap (s.length + 1) (c :: s) = _
  simp only [subTextF, h]
  rfl

theorem matchAt_cons_ne {ap : List Str} {c : Char} {s : Str} (h : c ≠ '<') :
    matchAt ap (c :: s) = none := by
  unfold matchAt
  rw [show litXr = '<' :: str "a class=\"Xr\"" from rfl]
  simp [stripLit, h]

theorem matchAt_lt_ne_a {ap : List Str} {c : Char} {s : Str} (h : c ≠ 'a') :
    matchAt ap ('<' :: c :: s) = none := by
  unfold matchAt
  rw [show litXr = '<' :: 'a' :: str " class=\"Xr\"" from rfl]
  simp [stripLit, h]

theorem matchAt_lit (ap : List Str) (w : Str) :
    matchAt ap (litXr ++ w) = titleScan (altsOf ap) w := by
  unfold matchAt
  rw [stripLit_self_append]

theorem subText_skip {ap : List Str} :
    ∀ {x w : Str}, (∀ c ∈ x, c ≠ '<') → subText ap (x ++ w) = x ++ subText ap w := by
  intro x
  induction x with
  | nil => intro w _; simp
  | cons c xs ih =>
    intro w h
    have hc : c ≠ '<' := h c (by simp)
    rw [List.cons_append, subText_cons_nomatch (matchAt_cons_ne hc),
      ih (fun c2 hc2 => h c2 (List.mem_cons_of_mem _ hc2))]
    rfl

theorem subText_of_no_lt {ap : List Str} {x : Str} (h : ∀ c ∈ x, c ≠ '<') :
    subText ap x = x := by
  have h2 := @subText_skip ap x [] h
  simpa [subText_nil] using h2

theorem plainChar_spec {c : Char} (h : plainChar c = true) :
    c ≠ '<' ∧ c ≠ '>' ∧ c ≠ '(' ∧ c ≠ ')' ∧ c ≠ '.' ∧ c ≠ '\n' ∧ c ≠ '/' := by
  refine ⟨?_, ?_, ?_, ?_, ?_, ?_, ?_⟩ <;> (intro hc; subst hc; revert h; decide)

theorem plainStr_mem {s : Str} (h : plainStr s = true) :
    ∀ c ∈ s, plainChar c = true := by
  intro c hc
  exact List.all_eq_true.mp h c hc

theorem nameMatch_plain {n : Str} (h : plainStr n = true) :
    ∀ s, nameMatch n s = stripLit n s := by
  induction n with
  | nil => intro s; rfl
  | cons c cs ih =>
    intro s
    have hc : plainChar c = true := plainStr_mem h c (by simp)
    have hcs : plainStr cs = true := by
      simp only [plainStr, List.all_cons, Bool.and_eq_true] at h
      exact h.2
    cases s with
    | nil => rfl
    | cons c2 s2 =>
      simp only [nameMatch, stripLit]
      have hdot : c ≠ '.' := (plainChar_spec hc).2.2.2.2.1
      rw [show charMatch c c2 = decide (c2 = c) from by simp [charMatch, hdot]]
      by_cases he : c2 = c
      · simp [he]
        exact ih hcs s2
      · simp [he]

theorem take_len_append (a b : Str) : (a ++ b).take a.length = a := by
  induction a with
  | nil => rfl
  | cons c cs ih => simp [ih]

theorem tryAlt_self {zs : Str} {d : Char} {v' : Str}
    (hz : plainStr zs = true) (hd : isDigit19 d = true) :
    tryAlt zs (zs ++ '(' :: d :: (str ")</a>" ++ v')) = some (zs, d, v') := by
  unfold tryAlt
  rw [nameMatch_plain hz, stripLit_self_append]
  dsimp only
  rw [if_pos rfl, if_pos hd, stripLit_self_append]
  rw [take_len_append]

theorem tryAlt_plain_shape {b w nm : Str} {d : Char} {r : Str}
    (hb : plainStr b = true) (h : tryAlt b w = some (nm, d, r)) :
    w = b ++ '(' :: d :: (str ")</a>" ++ r) ∧ nm = b ∧ isDigit19 d = true := by
  unfold tryAlt at h
  rw [nameMatch_plain hb] at h
  cases hsb : stripLit b w with
  | none => rw [hsb] at h; exact absurd h (by simp)
  | some r1 =>
    rw [hsb] at h
    have hw := stripLit_eq_some hsb
    match r1, h with
    | c1 :: d2 :: r2, h =>
      dsimp only at h
      by_cases h1 : c1 = '('
      · rw [if_pos h1] at h
        by_cases h2 : isDigit19 d2 = true
        · rw [if_pos h2] at h
          cases hs2 : stripLit (str ")</a>") r2 with
          | none => rw [hs2] at h; exact absurd h (by simp)
          | some r3 =>
            rw [hs2] at h
            have hr2 := stripLit_eq_some hs2
            simp only [Option.some.injEq, Prod.mk.injEq] at h
            obtain ⟨hnm, hd2, hr3⟩ := h
            subst hd2
            subst hr3
            refine ⟨?_, ?_, h2⟩
            · rw [hw, h1, hr2]
            · rw [← hnm, hw, take_len_append]
        · rw [if_neg h2] at h; exact absurd h (by simp)
      · rw [if_neg h1] at h; exact absurd h (by simp)

theorem tryAlt_site_ne {b zs : Str} {d : Char} {v' : Str}
    (hb : plainStr b = true) (hzs : plainStr zs = true) (hne : b ≠ zs) :
    tryAlt b (zs ++ '(' :: d :: (str ")</a>" ++ v')) = none := by
  cases h : tryAlt b (zs ++ '(' :: d :: (str ")</a>" ++ v')) with
  | none => rfl
  | some x =>
    exfalso
    obtain ⟨nm, d2, r⟩ := x
    obtain ⟨hw, -, -⟩ := tryAlt_plain_shape hb h
    rw [List.append_eq_append_iff] at hw
    rcases hw with ⟨u, hbu, hXu⟩ | ⟨u, hzu, hYu⟩
    · cases u with
      | nil => exact hne (by simpa using hbu)
      | cons u0 us =>
        have h0 : '(' = u0 := by simpa using congrArg (fun l => l.headI) hXu
        have hu0 : plainChar u0 = true :=
          plainStr_mem hb u0 (by rw [hbu]; simp)
        rw [← h0] at hu0
        exact absurd hu0 (by decide)
    · cases u with
      | nil =>
        have : zs = b := by simpa using hzu
        exact hne this.symm
      | cons u0 us =>
        have h0 : '(' = u0 := by simpa using congrArg (fun l => l.headI) hYu
        have hu0 : plainChar u0 = true :=
          plainStr_mem hzs u0 (by rw [hzu]; simp)
        rw [← h0] at hu0
        exact absurd hu0 (by decide)

theorem tryAlts_site {alts : List Str} {zs : Str} {d : Char} {v' : Str}
    (hall : ∀ b ∈ alts, plainStr b = true) (hzs : plainStr zs = true)
    (hd : isDigit19 d = true) (hmem : zs ∈ alts) :
    tryAlts alts (zs ++ '(' :: d :: (str ")</a>" ++ v')) = some (zs, d, v') := by
  induction alts with
  | nil => simp at hmem
  | cons b bs ih =>
    simp only [tryAlts]
    by_cases hb : b = zs
    · subst hb
      rw [tryAlt_self (hall b (by simp)) hd]
    · rw [tryAlt_site_ne (hall b (by simp)) hzs hb]
      refine ih (fun x hx => hall x (List.mem_cons_of_mem _ hx)) ?_
      rcases List.mem_cons.mp hmem with h | h
      · exact absurd h.symm hb
      · exact h

theorem tryAlts_site_none {alts : List Str} {zs : Str} {d : Char} {v' : Str}
    (hall : ∀ b ∈ alts, plainStr b = true) (hzs : plainStr zs = true)
    (hmem : zs ∉ alts) :
    tryAlts alts (zs ++ '(' :: d :: (str ")</a>" ++ v')) = none := by
  induction alts with
  | nil => rfl
  | cons b bs ih =>
    simp only [tryAlts]
    have hb : b ≠ zs := fun hb => hmem (hb ▸ List.mem_cons_self b bs)
    rw [tryAlt_site_ne (hall b (by simp)) hzs hb]
    exact ih (fun x hx => hall x (List.mem_cons_of_mem _ hx))
      (fun hx => hmem (List.mem_cons_of_mem _ hx))

theorem tryAlt_none_of_lt_free {b w : Str} (hb : plainStr b = true)
    (hw : ∀ c ∈ w, c ≠ '<') : tryAlt b w = none := by
  cases h : tryAlt b w with
  | none => rfl
  | some x =>
    exfalso
    obtain ⟨nm, d, r⟩ := x
    obtain ⟨hww, -, -⟩ := tryAlt_plain_shape hb h
    have hmem : '<' ∈ w := by
      rw [hww]
      refine List.mem_append_right _ ?_
      simp [str]
    exact hw '<' hmem rfl

theorem tryAlts_none_of_lt_free {alts : List Str} {w : Str}
    (hall : ∀ b ∈ alts, plainStr b = true) (hw : ∀ c ∈ w, c ≠ '<') :
    tryAlts alts w = none := by
  induction alts with
  | nil => rfl
  | cons b bs ih =>
    simp only [tryAlts]
    rw [tryAlt_none_of_lt_free (hall b (by simp)) hw]
    exact ih (fun x hx => hall x (List.mem_cons_of_mem _ hx))

theorem tryAlts_none_head {alts : List Str} {h0 : Char} {w' : Str}
    (hall : ∀ b ∈ alts, plainStr b = true) (h1 : h0 ≠ '(') (h2 : plainChar h0 = false) :
    tryAlts alts (h0 :: w') = none := by
  induction alts with
  | nil => rfl
  | cons b bs ih =>
    simp only [tryAlts]
    have hbn : tryAlt b (h0 :: w') = none := by
      cases h : tryAlt b (h0 :: w') with
      | none => rfl
      | some x =>
        exfalso
        obtain ⟨nm, d, r⟩ := x
        obtain ⟨hww, -, -⟩ := tryAlt_plain_shape (hall b (List.mem_cons_self b bs)) h
        cases b with
        | nil =>
          have hh : h0 = '(' := by simpa using congrArg (fun l => l.headI) hww
          exact h1 hh
        | cons b0 bs2 =>
          have h0b : h0 = b0 := by simpa using congrArg (fun l => l.headI) hww
          have hpb0 : plainChar b0 = true :=
            plainStr_mem (hall (b0 :: bs2) (List.mem_cons_self _ _)) b0
              (List.mem_cons_self _ _)
          rw [← h0b] at hpb0
          rw [hpb0] at h2
          exact absurd h2 (by decide)
    rw [hbn]
    exact ih (fun x hx => hall x (List.mem_cons_of_mem _ hx))

theorem titleScan_pass {alts : List Str} :
    ∀ {x w : Str}, (∀ c ∈ x, c ≠ '>' ∧ c ≠ '\n') →
      titleScan alts (x ++ w) = titleScan alts w := by
  intro x
  induction x with
  | nil => intro w _; rfl
  | cons c cs ih =>
    intro w h
    have hc := h c (by simp)
    rw [List.cons_append]
    simp only [titleScan]
    rw [if_neg hc.1, if_neg hc.2]
    exact ih (fun c2 hc2 => h c2 (List.mem_cons_of_mem _ hc2))

theorem titleScan_gt {alts : List Str} {w : Str} {res : Str × Char × Str}
    (h : tryAlts alts w = some res) : titleScan alts ('>' :: w) = some res := by
  have h0 : titleScan alts ('>' :: w) =
      (match tryAlts alts w with
       | some res => some res
       | none => titleScan alts w) := rfl
  rw [h0, h]

theorem titleScan_gt_none {alts : List Str} {w : Str}
    (h : tryAlts alts w = none) : titleScan alts ('>' :: w) = titleScan alts w := by
  have h0 : titleScan alts ('>' :: w) =
      (match tryAlts alts w with
       | some res => some res
       | none => titleScan alts w) := rfl
  rw [h0, h]

theorem titleScan_none_of_lt_free {alts : List Str}
    (hall : ∀ b ∈ alts, plainStr b = true) :
    ∀ {w : Str}, (∀ c ∈ w, c ≠ '<') → titleScan alts w = none := by
  intro w
  induction w with
  | nil => intro _; rfl
  | cons c cs ih =>
    intro h
    have htail : ∀ x ∈ cs, x ≠ '<' := fun x hx => h x (List.mem_cons_of_mem _ hx)
    simp only [titleScan]
    by_cases hgt : c = '>'
    · rw [if_pos hgt, tryAlts_none_of_lt_free hall htail]
      exact ih htail
    · rw [if_neg hgt]
      by_cases hnl : c = '\n'
      · rw [if_pos hnl]
      · rw [if_neg hnl]
        exact ih htail

theorem titleScan_cons_skip {alts : List Str} {c : Char} {w : Str}
    (h1 : c ≠ '>') (h2 : c ≠ '\n') :
    titleScan alts (c :: w) = titleScan alts w := by
  simp only [titleScan]
  rw [if_neg h1, if_neg h2]

theorem titleScan_cons_nl {alts : List Str} {w : Str} :
    titleScan alts ('\n' :: w) = none := rfl

theorem titleScan_site_none {alts : List Str} {nm : Str} {d : Char} {x2 : Str}
    (hall : ∀ b ∈ alts, plainStr b = true) (hnmp : plainStr nm = true)
    (hx2 : ∀ c ∈ x2, c ≠ '<') :
    titleScan alts (nm ++ '(' :: d :: (str ")</a>" ++ x2)) = none := by
  have hrest : titleScan alts (str ")</a>" ++ x2) = none := by
    rw [show (str ")</a>" ++ x2) = [')', '<', '/', 'a'] ++ ('>' :: x2) from rfl]
    rw [titleScan_pass (by decide)]
    rw [titleScan_gt_none (tryAlts_none_of_lt_free hall hx2)]
    exact titleScan_none_of_lt_free hall hx2
  rw [titleScan_pass (fun c hc =>
    ⟨(plainChar_spec (plainStr_mem hnmp c hc)).2.1,
     (plainChar_spec (plainStr_mem hnmp c hc)).2.2.2.2.2.1⟩)]
  rw [titleScan_cons_skip (by decide) (by decide)]
  by_cases hd : d = '>'
  · subst hd
    have h1 : tryAlts alts (')' :: ('<' :: '/' :: 'a' :: '>' :: x2)) = none :=
      tryAlts_none_head hall (by decide) (by decide)
    have h2 : titleScan alts ('>' :: (str ")</a>" ++ x2)) =
        titleScan alts (str ")</a>" ++ x2) := titleScan_gt_none (by exact h1)
    rw [h2]
    exact hrest
  · by_cases hnl : d = '\n'
    · subst hnl
      exact titleScan_cons_nl
    · rw [titleScan_cons_skip hd hnl]
      exact hrest

theorem mem_foldl_acc (reg : Registry) :
    ∀ (acc : List Str) (x : Str), x ∈ acc →
      x ∈ reg.foldl (fun acc e => acc ++ e.2.map splitextBase) acc := by
  induction reg with
  | nil => intro acc x hx; exact hx
  | cons e es ih =>
    intro acc x hx
    exact ih _ x (List.mem_append_left _ hx)

theorem mem_allPages_aux {sec : Str} {l : List Str} {p : Str} :
    ∀ (reg : Registry) (acc : List Str), (sec, l) ∈ reg → p ∈ l →
      splitextBase p ∈ reg.foldl (fun acc e => acc ++ e.2.map splitextBase) acc := by
  intro reg
  induction reg with
  | nil => intro acc h1 _; simp at h1
  | cons e es ih =>
    intro acc h1 h2
    rcases List.mem_cons.mp h1 with he | he
    · subst he
      simp only [List.foldl_cons]
      exact mem_foldl_acc es _ _
        (List.mem_append_right _ (List.mem_map_of_mem splitextBase h2))
    · exact ih _ he h2

theorem mem_allPages {reg : Registry} {sec : Str} {l : List Str} {p : Str}
    (h1 : (sec, l) ∈ reg) (h2 : p ∈ l) : splitextBase p ∈ allPages reg :=
  mem_allPages_aux reg [] h1 h2

theorem altsOf_of_ne_nil {ap : List Str} (h : ap ≠ []) : altsOf ap = ap := by
  simp [altsOf, h]

theorem anchorXr_append (t nm : Str) (d : Char) (v : Str) :
    anchorXr t nm d ++ v =
      litXr ++ (t ++ '>' :: (nm ++ '(' :: d :: (str ")</a>" ++ v))) := by
  simp [anchorXr, List.append_assoc]

theorem matchAt_anchor_some (ap : List Str) (t zs : Str) (d : Char) (v : Str)
    (hall : ∀ b ∈ ap, plainStr b = true) (hzs : plainStr zs = true)
    (hd : isDigit19 d = true) (hmem : zs ∈ ap)
    (ht : ∀ c ∈ t, c ≠ '>' ∧ c ≠ '\n') :
    matchAt ap (anchorXr t zs d ++ v) = some (zs, d, v) := by
  rw [anchorXr_append, matchAt_lit]
  have hne : ap ≠ [] := by
    intro h
    subst h
    simp at hmem
  rw [altsOf_of_ne_nil hne, titleScan_pass ht]
  exact titleScan_gt (tryAlts_site hall hzs hd hmem)

/-- C1: whenever a fragment contains the renderer-shaped cross-reference
anchor `<a class="Xr"TITLE>zpool(8)</a>` (with no spurious anchor opening
before it) and the registry holds page `zpool` under section 8, the
substituted fragment keeps the prefix and carries, in place of the anchor,
exactly `<a href="../8/zpool.8.html" class="Xr">zpool(8)</a>` — the target
`../8/zpool.8.html`, the class `Xr` and the visible text `zpool(8)`. -/
theorem c1_hyperlink_roundtrip (u t v : Str) (reg : Registry)
    (hplain : ∀ b ∈ allPages reg, plainStr b = true)
    (hreg : ∃ l, (str "8", l) ∈ reg ∧ str "zpool.8" ∈ l)
    (ht : ∀ c ∈ t, c ≠ '>' ∧ c ≠ '\n')
    (hu : ∀ i, i < u.length →
      stripLit litXr ((u ++ anchorXr t (str "zpool") '8' ++ v).drop i) = none) :
    subText (allPages reg) (u ++ anchorXr t (str "zpool") '8' ++ v) =
      u ++ (replText (str "zpool") '8' ++ subText (allPages reg) v) := by
  obtain ⟨l, hl, hp⟩ := hreg
  have hmem : str "zpool" ∈ allPages reg := by
    have h := mem_allPages hl hp
    rwa [show splitextBase (str "zpool.8") = str "zpool" by decide] at h
  revert hu
  induction u with
  | nil =>
    intro _
    simp only [List.nil_append]
    rw [subText_match (matchAt_anchor_some (allPages reg) t (str "zpool") '8' v
      hplain (by decide) (by decide) hmem ht)]
  | cons c u2 ih =>
    intro hu
    have h0 := hu 0 (by simp)
    rw [List.drop_zero] at h0
    have hm : matchAt (allPages reg)
        ((c :: u2) ++ anchorXr t (str "zpool") '8' ++ v) = none := by
      unfold matchAt
      rw [h0]
    have hm2 : matchAt (allPages reg)
        (c :: (u2 ++ anchorXr t (str "zpool") '8' ++ v)) = none := hm
    have hrec := ih (fun i hi => hu (i + 1) (by simp; omega))
    calc subText (allPages reg) ((c :: u2) ++ anchorXr t (str "zpool") '8' ++ v)
        = subText (allPages reg) (c :: (u2 ++ anchorXr t (str "zpool") '8' ++ v)) := rfl
      _ = c :: subText (allPages reg) (u2 ++ anchorXr t (str "zpool") '8' ++ v) :=
          subText_cons_nomatch hm2
      _ = c :: (u2 ++ (replText (str "zpool") '8' ++ subText (allPages reg) v)) := by
          rw [hrec]
      _ = (c :: u2) ++ (replText (str "zpool") '8' ++ subText (allPages reg) v) := rfl

/-- C1 witness: a concrete fragment and the registry `{8: [zpool.8]}`. -/
theorem c1_hyperlink_roundtrip_witness :
    (∀ b ∈ allPages c1Reg, plainStr b = true) ∧
    subText (allPages c1Reg)
        (str "<p>See " ++ anchorXr (str " title=\"x\"") (str "zpool") '8' ++
          str " now.</p>") =
      str "<p>See " ++
        (replText (str "zpool") '8' ++ subText (allPages c1Reg) (str " now.</p>")) :=
  ⟨by decide,
   c1_hyperlink_roundtrip (str "<p>See ") (str " title=\"x\"") (str " now.</p>")
     c1Reg (by decide) ⟨[str "zpool.8"], by decide, by decide⟩ (by decide) (by decide)⟩

/-- C10: the rewritten anchor discards everything captured between
`class="Xr"` and the closing `>` (for example a `title` attribute); the
replacement consists of exactly the new `href` and `class="Xr"`. -/
theorem c10_attributes_dropped (t : Str) (reg : Registry)
    (hplain : ∀ b ∈ allPages reg, plainStr b = true)
    (hreg : ∃ l, (str "8", l) ∈ reg ∧ str "zpool.8" ∈ l)
    (ht : ∀ c ∈ t, c ≠ '>' ∧ c ≠ '\n') :
    subText (allPages reg) (anchorXr t (str "zpool") '8') =
      replText (str "zpool") '8' := by
  obtain ⟨l, hl, hp⟩ := hreg
  have hmem : str "zpool" ∈ allPages reg := by
    have h := mem_allPages hl hp
    rwa [show splitextBase (str "zpool.8") = str "zpool" by decide] at h
  have h := matchAt_anchor_some (allPages reg) t (str "zpool") '8' []
    hplain (by decide) (by decide) hmem ht
  rw [List.append_nil] at h
  rw [subText_match h, subText_nil, List.append_nil]

/-- C10 witness: a title attribute is discarded by the rewrite. -/
theorem c10_attributes_dropped_witness :
    (∀ c ∈ str " title=\"ZFS pool\"", c ≠ '>' ∧ c ≠ '\n') ∧
    subText (allPages c1Reg) (anchorXr (str " title=\"ZFS pool\"") (str "zpool") '8') =
      replText (str "zpool") '8' :=
  ⟨by decide,
   c10_attributes_dropped (str " title=\"ZFS pool\"") c1Reg (by decide)
     ⟨[str "zpool.8"], by decide, by decide⟩ (by decide)⟩

/-- C9: the pattern combines every known base name with every digit 1-9,
and the link target is built from the cited digit: `ls`, registered only
under section 1, cited as `ls(d)` is rewritten to `../d/ls.d.html`; the
digit `0` is not matched at all. -/
theorem c9_cited_digit :
    (∀ d, isDigit19 d = true →
      subText (allPages c9Reg) (anchorXr [] (str "ls") d) = replText (str "ls") d) ∧
    subText (allPages c9Reg) (anchorXr [] (str "ls") '0') =
      anchorXr [] (str "ls") '0' := by
  constructor
  · intro d hd
    have h := matchAt_anchor_some (allPages c9Reg) [] (str "ls") d []
      (by decide) (by decide) hd (by decide) (by decide)
    rw [List.append_nil] at h
    rw [subText_match h, subText_nil, List.append_nil]
  · decide

/-- C9 witness: `ls(8)` is rewritten to target `../8/ls.8.html` even though
`ls` is registered only under section 1. -/
theorem c9_cited_digit_witness :
    isDigit19 '8' = true ∧
    subText (allPages c9Reg) (anchorXr [] (str "ls") '8') = replText (str "ls") '8' :=
  ⟨by decide, c9_cited_digit.1 '8' (by decide)⟩

/-- C8 counterexample: with the legitimately discoverable page `a.b.8`
registered (base name `a.b`, which contains the regex metacharacter `.`),
the cross reference `axb(8)` is rewritten although `axb` is not a page base
name of the registry — the claim's universal statement fails. -/
theorem c8_unknown_name_counterexample :
    str "axb" ∉ allPages c8Reg ∧
    subText (allPages c8Reg) (anchorXr [] (str "axb") '8') =
      replText (str "axb") '8' ∧
    subText (allPages c8Reg) (anchorXr [] (str "axb") '8') ≠
      anchorXr [] (str "axb") '8' := by
  refine ⟨by decide, by decide, by decide⟩

/-- C8 amended: provided every registered base name is over the plain
file-name alphabet (letters, digits, `-`, `_` — no regex metacharacters),
a cross-reference anchor whose plain, non-empty name is not a registered
base name is not rewritten, and a fragment made of such an anchor with
`<`-free surrounding text is left byte-for-byte unmodified. -/
theorem c8_unknown_not_rewritten (x1 t nm : Str) (d : Char) (x2 : Str)
    (reg : Registry)
    (hplain : ∀ b ∈ allPages reg, plainStr b = true)
    (hnm : plainStr nm = true) (hnotin : nm ∉ allPages reg) (hne : nm ≠ [])
    (hx1 : ∀ c ∈ x1, c ≠ '<')
    (ht : ∀ c ∈ t, c ≠ '>' ∧ c ≠ '\n' ∧ c ≠ '<')
    (hx2 : ∀ c ∈ x2, c ≠ '<') :
    subText (allPages reg) (x1 ++ (anchorXr t nm d ++ x2)) =
      x1 ++ (anchorXr t nm d ++ x2) := by
  have hallA : ∀ b ∈ altsOf (allPages reg), plainStr b = true := by
    intro b hb
    by_cases hap : allPages reg = []
    · rw [hap] at hb
      simp [altsOf] at hb
      subst hb
      decide
    · rw [altsOf_of_ne_nil hap] at hb
      exact hplain b hb
  have hnotinA : nm ∉ altsOf (allPages reg) := by
    by_cases hap : allPages reg = []
    · rw [hap]
      simp [altsOf]
      exact fun h => hne h
    · rw [altsOf_of_ne_nil hap]
      exact hnotin
  have ht2 : ∀ c ∈ t, c ≠ '>' ∧ c ≠ '\n' := fun c hc => ⟨(ht c hc).1, (ht c hc).2.1⟩
  have hm : matchAt (allPages reg) (anchorXr t nm d ++ x2) = none := by
    rw [anchorXr_append, matchAt_lit, titleScan_pass ht2,
      titleScan_gt_none (tryAlts_site_none hallA hnm hnotinA)]
    exact titleScan_site_none hallA hnm hx2
  have hrw : anchorXr t nm d ++ x2 =
      '<' :: ((str "a class=\"Xr\"" ++ (t ++ '>' :: (nm ++ ['(']))) ++
        (d :: ')' :: ('<' :: ('/' :: 'a' :: '>' :: x2)))) := by
    simp only [anchorXr]
    rw [show litXr = '<' :: str "a class=\"Xr\"" from rfl,
      show str ")</a>" = [')', '<', '/', 'a', '>'] from rfl]
    simp [List.append_assoc]
  have hlit : ∀ c ∈ str "a class=\"Xr\"", c ≠ '<' := by decide
  have hchunk : ∀ c ∈ str "a class=\"Xr\"" ++ (t ++ '>' :: (nm ++ ['('])), c ≠ '<' := by
    intro c hc
    rcases List.mem_append.mp hc with hc | hc
    · exact hlit c hc
    · rcases List.mem_append.mp hc with hc | hc
      · exact (ht c hc).2.2
      · rcases List.mem_cons.mp hc with hc | hc
        · subst hc; decide
        · rcases List.mem_append.mp hc with hc | hc
          · exact (plainChar_spec (plainStr_mem hnm c hc)).1
          · rcases List.mem_cons.mp hc with hc | hc
            · subst hc; decide
            · simp at hc
  have htail : subText (allPages reg)
      (d :: ')' :: ('<' :: ('/' :: 'a' :: '>' :: x2))) =
      d :: ')' :: ('<' :: ('/' :: 'a' :: '>' :: x2)) := by
    have hz : subText (allPages reg) ('<' :: ('/' :: 'a' :: '>' :: x2)) =
        '<' :: ('/' :: 'a' :: '>' :: x2) := by
      rw [subText_cons_nomatch (matchAt_lt_ne_a (by decide))]
      have hfree : ∀ c ∈ '/' :: 'a' :: '>' :: x2, c ≠ '<' := by
        intro c hc
        rcases List.mem_cons.mp hc with hc | hc
        · subst hc; decide
        · rcases List.mem_cons.mp hc with hc | hc
          · subst hc; decide
          · rcases List.mem_cons.mp hc with hc | hc
            · subst hc; decide
            · exact hx2 c hc
      rw [subText_of_no_lt hfree]
    by_cases hd : d = '<'
    · subst hd
      rw [subText_cons_nomatch (matchAt_lt_ne_a (by decide))]
      rw [subText_cons_nomatch (matchAt_cons_ne (by decide))]
      rw [hz]
    · rw [subText_cons_nomatch (matchAt_cons_ne hd)]
      rw [subText_cons_nomatch (matchAt_cons_ne (by decide))]
      rw [hz]
  rw [subText_skip hx1, hrw]
  have hm2 : matchAt (allPages reg)
      ('<' :: ((str "a class=\"Xr\"" ++ (t ++ '>' :: (nm ++ ['(']))) ++
        (d :: ')' :: ('<' :: ('/' :: 'a' :: '>' :: x2))))) = none := by
    rw [← hrw]
    exact hm
  rw [subText_cons_nomatch hm2, subText_skip hchunk, htail]

/-! ### Lemmas about the filesystem model and the hyperlink pass -/

theorem find?_eq_head?_filter (l : List (Str × Str)) (p : Str) :
    l.find? (fun e => e.1 = p) = (l.filter (fun e => e.1 = p)).head? := by
  induction l with
  | nil => rfl
  | cons e es ih =>
    by_cases he : e.1 = p
    · rw [List.find?_cons_of_pos _ (by simpa using he),
        List.filter_cons_of_pos (by simpa using he)]
      rfl
    · rw [List.find?_cons_of_neg _ (by simpa using he),
        List.filter_cons_of_neg (by simpa using he)]
      exact ih

theorem readFs_eq_of_filter_eq {fs fs' : Fs} {p : Str}
    (h : fs'.files.filter (fun e => e.1 = p) = fs.files.filter (fun e => e.1 = p)) :
    readFs fs' p = readFs fs p := by
  unfold readFs
  rw [find?_eq_head?_filter, find?_eq_head?_filter, h]

theorem hyperFile_ok_frame {outDir : Str} {ap : List Str} {sec : Str}
    {fs fs' : Fs} {page p : Str} (hne : fragPath outDir sec page ≠ p)
    (h : hyperFile outDir ap sec fs page = .ok fs') :
    fs'.files.filter (fun e => e.1 = p) = fs.files.filter (fun e => e.1 = p) := by
  unfold hyperFile at h
  dsimp only at h
  cases hr : readFs fs (fragPath outDir sec page) with
  | none => rw [hr] at h; exact absurd h (by simp)
  | some text =>
    rw [hr] at h
    dsimp only at h
    by_cases hc : subText ap text = text
    · rw [if_pos hc] at h
      obtain rfl := Except.ok.inj h
      rfl
    · rw [if_neg hc] at h
      obtain rfl := Except.ok.inj h
      simp [writeF, List.filter_cons, hne]

theorem hyperPages_frame {outDir : Str} {ap : List Str} {sec p : Str} :
    ∀ {ps : List Str} {fs fs' : Fs}, (∀ q ∈ ps, fragPath outDir sec q ≠ p) →
      hyperPages outDir ap sec ps fs = .ok fs' →
      fs'.files.filter (fun e => e.1 = p) = fs.files.filter (fun e => e.1 = p) := by
  intro ps
  induction ps with
  | nil =>
    intro fs fs' _ h
    obtain rfl := Except.ok.inj h
    rfl
  | cons q qs ih =>
    intro fs fs' hq h
    simp only [hyperPages] at h
    cases hf : hyperFile outDir ap sec fs q with
    | error e => rw [hf] at h; exact absurd h (by simp)
    | ok fs1 =>
      rw [hf] at h
      dsimp only at h
      have h1 := hyperFile_ok_frame (hq q (List.mem_cons_self _ _)) hf
      have h2 := ih (fun x hx => hq x (List.mem_cons_of_mem _ hx)) h
      rw [h2, h1]

theorem hyperSections_frame {outDir : Str} {ap : List Str} {p : Str} :
    ∀ {l : Registry} {fs fs' : Fs}, p ∉ fragPaths outDir l →
      hyperSections outDir ap l fs = .ok fs' →
      fs'.files.filter (fun e => e.1 = p) = fs.files.filter (fun e => e.1 = p) := by
  intro l
  induction l with
  | nil =>
    intro fs fs' _ h
    obtain rfl := Except.ok.inj h
    rfl
  | cons e es ih =>
    intro fs fs' hp h
    simp only [hyperSections] at h
    cases hh : hyperPages outDir ap e.1 e.2 fs with
    | error x => rw [hh] at h; exact absurd h (by simp)
    | ok fs1 =>
      rw [hh] at h
      dsimp only at h
      have hp1 : ∀ q ∈ e.2, fragPath outDir e.1 q ≠ p := by
        intro q hq hcontra
        exact hp (by
          simp only [fragPaths]
          exact List.mem_append_left _ (hcontra ▸ List.mem_map_of_mem _ hq))
      have hp2 : p ∉ fragPaths outDir es := by
        intro hcontra
        exact hp (by
          simp only [fragPaths]
          exact List.mem_append_right _ hcontra)
      rw [ih hp2 h, hyperPages_frame hp1 hh]

theorem mem_fragPaths {outDir sec page : Str} {ps : List Str} :
    ∀ {l : Registry}, (sec, ps) ∈ l → page ∈ ps →
      fragPath outDir sec page ∈ fragPaths outDir l := by
  intro l
  induction l with
  | nil => intro h _; simp at h
  | cons e es ih =>
    intro h1 h2
    simp only [fragPaths]
    rcases List.mem_cons.mp h1 with he | he
    · subst he
      exact List.mem_append_left _ (List.mem_map_of_mem _ h2)
    · exact List.mem_append_right _ (ih he h2)

theorem hyperPages_main {outDir : Str} {ap : List Str} {sec page p t : Str} :
    ∀ {ps : List Str} {fs fs' : Fs}, page ∈ ps →
      (ps.map (fragPath outDir sec)).Nodup →
      p = fragPath outDir sec page →
      readFs fs p = some t →
      hyperPages outDir ap sec ps fs = .ok fs' →
      fs'.files.filter (fun e => e.1 = p) =
        (if subText ap t = t then [] else [(p, subText ap t)]) ++
          fs.files.filter (fun e => e.1 = p) := by
  intro ps
  induction ps with
  | nil => intro fs fs' hmem; simp at hmem
  | cons q qs ih =>
    intro fs fs' hmem hnd hp hread h
    simp only [hyperPages] at h
    cases hf : hyperFile outDir ap sec fs q with
    | error e => rw [hf] at h; exact absurd h (by simp)
    | ok fs1 =>
      rw [hf] at h
      dsimp only at h
      simp only [List.map_cons, List.nodup_cons] at hnd
      by_cases hq : q = page
      · subst hq
        unfold hyperFile at hf
        dsimp only at hf
        rw [← hp, hread] at hf
        dsimp only at hf
        have hqs : ∀ x ∈ qs, fragPath outDir sec x ≠ p := by
          intro x hx hcontra
          exact hnd.1 (by rw [← hp, ← hcontra]; exact List.mem_map_of_mem _ hx)
        by_cases hc : subText ap t = t
        · rw [if_pos hc] at hf
          obtain rfl := Except.ok.inj hf
          rw [hyperPages_frame hqs h, if_pos hc, List.nil_append]
        · rw [if_neg hc] at hf
          obtain rfl := Except.ok.inj hf
          rw [hyperPages_frame hqs h, if_neg hc]
          have hw : (writeF p (subText ap t) fs).files.filter (fun e => e.1 = p) =
              (p, subText ap t) :: fs.files.filter (fun e => e.1 = p) := by
            simp [writeF, List.filter_cons]
          rw [hw]
          rfl
      · have hmem2 : page ∈ qs := by
          rcases List.mem_cons.mp hmem with hx | hx
          · exact absurd hx.symm hq
          · exact hx
        have hne : fragPath outDir sec q ≠ p := by
          intro hcontra
          exact hnd.1 (by rw [hcontra, hp]; exact List.mem_map_of_mem _ hmem2)
        have h1 := hyperFile_ok_frame hne hf
        have hread1 : readFs fs1 p = some t := by
          rw [readFs_eq_of_filter_eq h1]; exact hread
        rw [ih hmem2 hnd.2 hp hread1 h, h1]

theorem hyperSections_main {outDir : Str} {ap : List Str}
    {sec page p t : Str} {ps : List Str} :
    ∀ {l : Registry} {fs fs' : Fs}, (sec, ps) ∈ l → page ∈ ps →
      (fragPaths outDir l).Nodup →
      p = fragPath outDir sec page →
      readFs fs p = some t →
      hyperSections outDir ap l fs = .ok fs' →
      fs'.files.filter (fun e => e.1 = p) =
        (if subText ap t = t then [] else [(p, subText ap t)]) ++
          fs.files.filter (fun e => e.1 = p) := by
  intro l
  induction l with
  | nil => intro fs fs' hmem; simp at hmem
  | cons e es ih =>
    intro fs fs' hsec hpage hnd hp hread h
    simp only [hyperSections] at h
    cases hh : hyperPages outDir ap e.1 e.2 fs with
    | error x => rw [hh] at h; exact absurd h (by simp)
    | ok fs1 =>
      rw [hh] at h
      dsimp only at h
      simp only [fragPaths, List.nodup_append] at hnd
      rcases List.mem_cons.mp hsec with he | he
      · subst he
        have hmain := hyperPages_main (t := t) hpage hnd.1 hp hread hh
        have hrest : p ∉ fragPaths outDir es := by
          intro hcontra
          refine hnd.2.2 ?_ hcontra
          rw [hp]
          exact List.mem_map_of_mem _ hpage
        rw [hyperSections_frame hrest h, hmain]
      · have hpfrag : p ∈ fragPaths outDir es := hp ▸ mem_fragPaths he hpage
        have hp1 : ∀ q ∈ e.2, fragPath outDir e.1 q ≠ p := by
          intro q hq hcontra
          exact hnd.2.2 (hcontra ▸ List.mem_map_of_mem _ hq) hpfrag
        have h1 := hyperPages_frame hp1 hh
        have hread1 : readFs fs1 p = some t := by
          rw [readFs_eq_of_filter_eq h1]; exact hread
        rw [ih he hpage hnd.2.1 hp hread1 h, h1]

/-- C6: in the hyperlink pass, a registered fragment file is written if and
only if the substituted text differs from its content: when they differ the
file gains exactly one new entry holding the substituted text, and when they
are equal the file's entries — hence its bytes — are untouched. -/
theorem c6_rewrite_iff_changed (outDir : Str) (reg : Registry) (fs fs' : Fs)
    (sec : Str) (ps : List Str) (page t : Str)
    (hnd : (fragPaths outDir reg).Nodup)
    (hmem : (sec, ps) ∈ reg) (hpg : page ∈ ps)
    (hread : readFs fs (fragPath outDir sec page) = some t)
    (hrun : addHyperlinksFs outDir reg fs = .ok fs') :
    fs'.files.filter (fun e => e.1 = fragPath outDir sec page) =
      (if subText (allPages reg) t = t then []
       else [(fragPath outDir sec page, subText (allPages reg) t)]) ++
        fs.files.filter (fun e => e.1 = fragPath outDir sec page) :=
  hyperSections_main hmem hpg hnd rfl hread hrun

/-- C6 witness: of the two registered fragments, `zpool.8.html` (whose
substitution differs) gains exactly its rewritten entry. -/
theorem c6_rewrite_iff_changed_witness :
    addHyperlinksFs (str "out") c6Reg c6Fs = .ok c6Fs' ∧
    c6Fs'.files.filter
        (fun e => e.1 = fragPath (str "out") (str "8") (str "zpool.8")) =
      (if subText (allPages c6Reg) (str "<p>see <a class=\"Xr\">zdb(8)</a></p>") =
          str "<p>see <a class=\"Xr\">zdb(8)</a></p>" then []
       else [(fragPath (str "out") (str "8") (str "zpool.8"),
         subText (allPages c6Reg) (str "<p>see <a class=\"Xr\">zdb(8)</a></p>"))]) ++
        c6Fs.files.filter
          (fun e => e.1 = fragPath (str "out") (str "8") (str "zpool.8")) :=
  ⟨by decide,
   c6_rewrite_iff_changed (str "out") c6Reg c6Fs c6Fs' (str "8")
     [str "zpool.8", str "zdb.8"] (str "zpool.8")
     (str "<p>see <a class=\"Xr\">zdb(8)</a></p>")
     (by decide) (by decide) (by decide) (by decide) (by decide)⟩

/-! ### Fail-fast behaviour of the discovery walk -/

theorem isSuffixOf_append_self (x s : Str) : s.isSuffixOf (x ++ s) = true := by
  have h : s <:+ x ++ s := ⟨x, rfl⟩
  exact (List.isSuffixOf_iff_suffix).mpr h

theorem fragWrite_html (outSecDir sp : Str) :
    (str ".html").isSuffixOf (joinP outSecDir (sp ++ str ".html")) = true := by
  have h : joinP outSecDir (sp ++ str ".html") =
      (outSecDir ++ '/' :: sp) ++ str ".html" := by
    simp [joinP]
  rw [h]
  exact isSuffixOf_append_self _ _

theorem pageLoop_ok_files {rend : Rend} {inDir d outSecDir num : Str} :
    ∀ {l : List Str} {fs : Fs} {acc : List Str} {fs2 : Fs} {ps2 : List Str},
      pageLoop rend inDir d outSecDir num l fs acc = .ok (fs2, ps2) →
      ∀ e ∈ fs2.files, e ∈ fs.files ∨ (str ".html").isSuffixOf e.1 = true := by
  intro l
  induction l with
  | nil =>
    intro fs acc fs2 ps2 h e he
    obtain ⟨h1, -⟩ := Prod.mk.injEq .. ▸ (Except.ok.inj h)
    exact Or.inl (h1 ▸ he)
  | cons q qs ih =>
    intro fs acc fs2 ps2 h e he
    simp only [pageLoop] at h
    by_cases hm : pageMatches num q = true
    · rw [if_pos hm] at h
      cases hr : rend (joinP (joinP inDir d) q) with
      | none => rw [hr] at h; exact absurd h (by simp)
      | some out =>
        rw [hr] at h
        dsimp only at h
        rcases ih h e he with hin | hh
        · rcases List.mem_cons.mp hin with hhd | htl
          · exact Or.inr (by rw [hhd]; exact fragWrite_html _ _)
          · exact Or.inl htl
        · exact Or.inr hh
    · rw [if_neg hm] at h
      exact ih h e he

theorem pageLoop_error_files {rend : Rend} {inDir d outSecDir num : Str} :
    ∀ {l : List Str} {fs : Fs} {acc : List Str} {st : Fs},
      pageLoop rend inDir d outSecDir num l fs acc = .error st →
      ∀ e ∈ st.files, e ∈ fs.files ∨ (str ".html").isSuffixOf e.1 = true := by
  intro l
  induction l with
  | nil =>
    intro fs acc st h
    exact absurd h (by simp [pageLoop])
  | cons q qs ih =>
    intro fs acc st h e he
    simp only [pageLoop] at h
    by_cases hm : pageMatches num q = true
    · rw [if_pos hm] at h
      cases hr : rend (joinP (joinP inDir d) q) with
      | none =>
        rw [hr] at h
        dsimp only at h
        obtain rfl := Except.error.inj h
        rcases List.mem_cons.mp he with hhd | htl
        · exact Or.inr (by rw [hhd]; exact fragWrite_html _ _)
        · exact Or.inl htl
      | some out =>
        rw [hr] at h
        dsimp only at h
        rcases ih h e he with hin | hh
        · rcases List.mem_cons.mp hin with hhd | htl
          · exact Or.inr (by rw [hhd]; exact fragWrite_html _ _)
          · exact Or.inl htl
        · exact Or.inr hh
    · rw [if_neg hm] at h
      exact ih h e he

theorem dirLoop_error_files {rend : Rend} {tree : SrcTree} {inDir outDir : Str} :
    ∀ {l : List Str} {reg : Registry} {fs : Fs} {st : Fs},
      dirLoop rend tree inDir outDir l reg fs = .error st →
      ∀ e ∈ st.files, e ∈ fs.files ∨ (str ".html").isSuffixOf e.1 = true := by
  intro l
  induction l with
  | nil =>
    intro reg fs st h
    exact absurd h (by simp [dirLoop])
  | cons d rest ih =>
    intro reg fs st h e he
    simp only [dirLoop] at h
    by_cases hrec : recognizedCode d ∈ sectionCodes
    · rw [if_pos hrec] at h
      cases hp : pageLoop rend inDir d (joinP (joinP outDir buildDirS) d)
          (recognizedCode d) (tree.files d)
          (mkdirF (joinP (joinP outDir buildDirS) d) fs) [] with
      | error x =>
        rw [hp] at h
        dsimp only at h
        obtain rfl := Except.error.inj h
        exact pageLoop_error_files hp e he
      | ok pair =>
        rw [hp] at h
        dsimp only at h
        rcases ih h e he with hin | hh
        · exact pageLoop_ok_files hp e hin
        · exact Or.inr hh
    · rw [if_neg hrec] at h
      exact ih h e he

theorem pageLoop_fails {rend : Rend} {inDir d outSecDir num : Str} :
    ∀ {l : List Str} {fs : Fs} {acc : List Str},
      (∃ q ∈ l, pageMatches num q = true ∧ rend (joinP (joinP inDir d) q) = none) →
      ∃ st, pageLoop rend inDir d outSecDir num l fs acc = .error st := by
  intro l
  induction l with
  | nil =>
    intro fs acc hex
    simp at hex
  | cons q qs ih =>
    intro fs acc hex
    obtain ⟨q0, hq0mem, hq0m, hq0f⟩ := hex
    simp only [pageLoop]
    by_cases hm : pageMatches num q = true
    · rw [if_pos hm]
      cases hr : rend (joinP (joinP inDir d) q) with
      | none => exact ⟨_, rfl⟩
      | some out =>
        dsimp only
        refine ih ⟨q0, ?_, hq0m, hq0f⟩
        rcases List.mem_cons.mp hq0mem with hx | hx
        · subst hx
          rw [hq0f] at hr
          exact absurd hr (by simp)
        · exact hx
    · rw [if_neg hm]
      refine ih ⟨q0, ?_, hq0m, hq0f⟩
      rcases List.mem_cons.mp hq0mem with hx | hx
      · subst hx
        rw [hq0m] at hm
        exact absurd rfl hm
      · exact hx

theorem dirLoop_fails {rend : Rend} {tree : SrcTree} {inDir outDir : Str} :
    ∀ {l : List Str} {reg : Registry} {fs : Fs},
      (∃ d ∈ l, recognizedCode d ∈ sectionCodes ∧
        ∃ q ∈ tree.files d, pageMatches (recognizedCode d) q = true ∧
          rend (joinP (joinP inDir d) q) = none) →
      ∃ st, dirLoop rend tree inDir outDir l reg fs = .error st := by
  intro l
  induction l with
  | nil =>
    intro reg fs hex
    simp at hex
  | cons d0 rest ih =>
    intro reg fs hex
    obtain ⟨d1, hd1mem, hd1rec, hd1ex⟩ := hex
    simp only [dirLoop]
    by_cases hrec : recognizedCode d0 ∈ sectionCodes
    · rw [if_pos hrec]
      cases hp : pageLoop rend inDir d0 (joinP (joinP outDir buildDirS) d0)
          (recognizedCode d0) (tree.files d0)
          (mkdirF (joinP (joinP outDir buildDirS) d0) fs) [] with
      | error x => exact ⟨x, rfl⟩
      | ok pair =>
        obtain ⟨fs2, newPs⟩ := pair
        dsimp only
        refine ih ⟨d1, ?_, hd1rec, hd1ex⟩
        rcases List.mem_cons.mp hd1mem with hx | hx
        · subst hx
          obtain ⟨st0, hst0⟩ := pageLoop_fails hd1ex
          rw [hst0] at hp
          exact absurd hp (by simp)
        · exact hx
    · rw [if_neg hrec]
      refine ih ⟨d1, ?_, hd1rec, hd1ex⟩
      rcases List.mem_cons.mp hd1mem with hx | hx
      · subst hx
        exact absurd hd1rec hrec
      · exact hx

/-- C2: when the renderer exits non-zero for any discovered page, `run`
propagates the exception: the result is an error state in which every file
beyond the initial ones is a rendered `.html` fragment — no index, no
section index and no stub (`.rst`) was written and the hyperlink pass never
ran.  Concretely, failing on `man8/a.8` leaves exactly the truncated
fragment of `a.8`: the following page `b.8` was never rendered. -/
theorem c2_renderer_failure_fail_fast :
    (∀ (rend : Rend) (tree : SrcTree) (inDir outDir : Str) (fs : Fs),
      (∃ d ∈ tree.dirs, recognizedCode d ∈ sectionCodes ∧
        ∃ q ∈ tree.files d, pageMatches (recognizedCode d) q = true ∧
          rend (joinP (joinP inDir d) q) = none) →
      ∃ st, run rend tree inDir outDir fs = .error st ∧
        ∀ e ∈ st.files, e ∈ fs.files ∨ (str ".html").isSuffixOf e.1 = true) ∧
    c2Run = .error ⟨[(str "out/_build/man/man8/a.8.html", [])],
      [str "out/_build/man/man8"]⟩ := by
  constructor
  · intro rend tree inDir outDir fs hex
    obtain ⟨st, hst⟩ := dirLoop_fails hex
    refine ⟨st, ?_, dirLoop_error_files hst⟩
    unfold run
    rw [hst]
  · decide

/-- C2 witness: the two-page scenario with the renderer failing on `a.8`. -/
theorem c2_renderer_failure_witness :
    (∃ d ∈ c2Tree.dirs, recognizedCode d ∈ sectionCodes ∧
      ∃ q ∈ c2Tree.files d, pageMatches (recognizedCode d) q = true ∧
        c2Rend (joinP (joinP (str "in") d) q) = none) ∧
    ∃ st, run c2Rend c2Tree (str "in") (str "out") ⟨[], []⟩ = .error st ∧
      ∀ e ∈ st.files, e ∈ (⟨[], []⟩ : Fs).files ∨
        (str ".html").isSuffixOf e.1 = true :=
  ⟨by decide,
   c2_renderer_failure_fail_fast.1 c2Rend c2Tree (str "in") (str "out") ⟨[], []⟩
     (by decide)⟩

/-! ### Stub naming and section recognition -/

/-- C3 counterexample: on the spec's own scenario tree the run succeeds but
writes no `out/man/1/ls.rst`, no `out/man/8/zpool.rst` and no
`out/man/8/foo.rst` — the stub of a page keeps its section suffix. -/
theorem c3_stub_name_counterexample :
    isOk c3Run = true ∧
    readIsSome c3Run (str "out/man/1/ls.rst") = false ∧
    readIsSome c3Run (str "out/man/8/zpool.rst") = false ∧
    readIsSome c3Run (str "out/man/8/foo.rst") = false := by
  refine ⟨by decide, by decide, by decide, by decide⟩

/-- C3 amended: a source file `foo.8.in` is registered with the `.in`
suffix stripped (as `foo.8`), its fragment is `foo.8.html` and its stub is
`foo.8.rst`; on the scenario tree the stubs `out/man/1/ls.1.rst`,
`out/man/8/zpool.8.rst` and `out/man/8/foo.8.rst` exist together with the
top and per-section indexes. -/
theorem c3_in_suffix_stripped :
    (∀ n : Str, strippedName (n ++ str ".8.in") = n ++ str ".8") ∧
    isOk c3Run = true ∧
    readIsSome c3Run (str "out/man/1/ls.1.rst") = true ∧
    readIsSome c3Run (str "out/man/8/zpool.8.rst") = true ∧
    readIsSome c3Run (str "out/man/8/foo.8.rst") = true ∧
    readIsSome c3Run (str "out/_build/man/man8/foo.8.html") = true ∧
    readIsSome c3Run (str "out/man/index.rst") = true ∧
    readIsSome c3Run (str "out/man/1/index.rst") = true ∧
    readIsSome c3Run (str "out/man/8/index.rst") = true := by
  refine ⟨?_, by decide, by decide, by decide, by decide, by decide, by decide,
    by decide, by decide⟩
  intro n
  unfold strippedName pyRstrip
  rw [List.reverse_append]
  rw [show (str ".8.in").reverse = 'n' :: 'i' :: '.' :: '8' :: '.' :: [] from rfl]
  simp only [List.cons_append, List.nil_append]
  rw [List.dropWhile_cons_of_pos (by decide), List.dropWhile_cons_of_pos (by decide),
    List.dropWhile_cons_of_pos (by decide), List.dropWhile_cons_of_neg (by decide)]
  simp
  rfl

/-- C4 counterexample: the subdirectory `man8man` — whose name does not
become a section code by stripping the prefix `man` (that yields `8man`) —
is nevertheless processed: `x.8` is registered under section 8 and the
output directory `out/_build/man/man8man` is created. -/
theorem c4_prefix_recognition_counterexample :
    recognizedCode (str "man8man") = str "8" ∧
    dirLoopPages c4Walk (str "8") = some [str "x.8"] ∧
    str "out/_build/man/man8man" ∈ dirLoopDirs c4Walk := by
  refine ⟨by decide, by decide, by decide⟩

/-- C4 amended: a subdirectory is recognized exactly when deleting every
occurrence of the substring `man` from its name (Python `str.replace`)
yields a code of the static table; directories failing this test are
skipped entirely — the walk equals the walk over the filtered directory
list — while `man8man` (whose replace-result is `8`) is processed. -/
theorem c4_recognition_by_replace :
    (∀ (rend : Rend) (tree : SrcTree) (inDir outDir : Str) (l : List Str)
        (reg : Registry) (fs : Fs),
      dirLoop rend tree inDir outDir l reg fs =
        dirLoop rend tree inDir outDir
          (l.filter (fun d => decide (recognizedCode d ∈ sectionCodes))) reg fs) ∧
    dirLoopPages c4Walk (str "8") = some [str "x.8"] := by
  constructor
  · intro rend tree inDir outDir l
    induction l with
    | nil => intro reg fs; rfl
    | cons d rest ih =>
      intro reg fs
      rw [List.filter_cons]
      by_cases h : recognizedCode d ∈ sectionCodes
      · rw [if_pos (by simpa using h)]
        simp only [dirLoop]
        rw [if_pos h, if_pos h]
        cases hp : pageLoop rend inDir d (joinP (joinP outDir buildDirS) d)
            (recognizedCode d) (tree.files d)
            (mkdirF (joinP (joinP outDir buildDirS) d) fs) [] with
        | error x => rfl
        | ok pair =>
          obtain ⟨fs2, newPs⟩ := pair
          dsimp only
          exact ih _ _
      · rw [if_neg (by simpa using h)]
        simp only [dirLoop]
        rw [if_neg h]
        exact ih _ _
  · decide

/-! ### Empty sections and the rst tree -/

theorem append_slash_inj {s1 : Str} :
    ∀ {s2 x y : Str}, ('/' : Char) ∉ s1 → ('/' : Char) ∉ s2 →
      s1 ++ '/' :: x = s2 ++ '/' :: y → s1 = s2 ∧ x = y := by
  induction s1 with
  | nil =>
    intro s2 x y _ h2 h
    cases s2 with
    | nil =>
      simp only [List.nil_append, List.cons.injEq] at h
      exact ⟨rfl, h.2⟩
    | cons b bs =>
      simp only [List.nil_append, List.cons_append, List.cons.injEq] at h
      exact absurd (h.1 ▸ List.mem_cons_self b bs) h2
  | cons a as ih =>
    intro s2 x y h1 h2 h
    cases s2 with
    | nil =>
      simp only [List.cons_append, List.nil_append, List.cons.injEq] at h
      exact absurd (h.1 ▸ List.mem_cons_self a as) h1
    | cons b bs =>
      simp only [List.cons_append, List.cons.injEq] at h
      obtain ⟨hab, htail⟩ := h
      have hr := ih (fun hc => h1 (List.mem_cons_of_mem _ hc))
        (fun hc => h2 (List.mem_cons_of_mem _ hc)) htail
      exact ⟨by rw [hab, hr.1], hr.2⟩

theorem writeF_dirs (p c : Str) (fs : Fs) : (writeF p c fs).dirs = fs.dirs := rfl

theorem writeStubs_dirs (outDir sec : Str) :
    ∀ (ps : List Str) (fs : Fs), (writeStubs outDir sec ps fs).dirs = fs.dirs := by
  intro ps
  induction ps with
  | nil => intro fs; rfl
  | cons p ps ih => intro fs; rw [writeStubs, ih, writeF_dirs]

theorem writeStubs_files_mem {outDir sec : Str} :
    ∀ {ps : List Str} {fs : Fs} {e : Str × Str},
      e ∈ (writeStubs outDir sec ps fs).files →
      e ∈ fs.files ∨
        ∃ y, e.1 = (joinP outDir manDirS ++ '/' :: sec) ++ '/' :: y := by
  intro ps
  induction ps with
  | nil => intro fs e he; exact Or.inl he
  | cons p ps ih =>
    intro fs e he
    rcases ih he with hin | hsh
    · rcases List.mem_cons.mp hin with hhd | htl
      · exact Or.inr ⟨p ++ str ".rst", by rw [hhd]; rfl⟩

      · exact Or.inl htl
    · exact Or.inr hsh

theorem writeSection_dirs_mem {outDir : Str} {fs : Fs} {ent : Str × List Str}
    {d : Str} (h : d ∈ (writeSection outDir fs ent).dirs) :
    d ∈ fs.dirs ∨ (ent.2 ≠ [] ∧ d = joinP outDir manDirS ++ '/' :: ent.1) := by
  unfold writeSection at h
  by_cases hemp : ent.2 = []
  · rw [if_pos hemp] at h
    exact Or.inl h
  · rw [if_neg hemp] at h
    dsimp only at h
    rw [writeStubs_dirs, writeF_dirs] at h
    rcases List.mem_cons.mp h with hhd | htl
    · exact Or.inr ⟨hemp, hhd⟩
    · exact Or.inl htl

theorem writeSection_files_mem {outDir : Str} {fs : Fs} {ent : Str × List Str}
    {e : Str × Str} (h : e ∈ (writeSection outDir fs ent).files) :
    e ∈ fs.files ∨
      (ent.2 ≠ [] ∧ ∃ y, e.1 = (joinP outDir manDirS ++ '/' :: ent.1) ++ '/' :: y) := by
  unfold writeSection at h
  by_cases hemp : ent.2 = []
  · rw [if_pos hemp] at h
    exact Or.inl h
  · rw [if_neg hemp] at h
    dsimp only at h
    rcases writeStubs_files_mem h with hin | hsh
    · rcases List.mem_cons.mp hin with hhd | htl
      · exact Or.inr ⟨hemp, str "index.rst", by rw [hhd]; rfl⟩
      · exact Or.inl htl
    · exact Or.inr ⟨hemp, hsh⟩

theorem writeSections_dirs_mem {outDir : Str} :
    ∀ {reg : Registry} {fs : Fs} {d : Str},
      d ∈ (writeSections outDir reg fs).dirs →
      d ∈ fs.dirs ∨
        ∃ ent ∈ reg, ent.2 ≠ [] ∧ d = joinP outDir manDirS ++ '/' :: ent.1 := by
  intro reg
  induction reg with
  | nil => intro fs d h; exact Or.inl h
  | cons ent es ih =>
    intro fs d h
    rcases ih h with hin | ⟨ent2, hent2, hx⟩
    · rcases writeSection_dirs_mem hin with hfs | ⟨hne, hd⟩
      · exact Or.inl hfs
      · exact Or.inr ⟨ent, List.mem_cons_self _ _, hne, hd⟩
    · exact Or.inr ⟨ent2, List.mem_cons_of_mem _ hent2, hx⟩

theorem writeSections_files_mem {outDir : Str} :
    ∀ {reg : Registry} {fs : Fs} {e : Str × Str},
      e ∈ (writeSections outDir reg fs).files →
      e ∈ fs.files ∨
        ∃ ent ∈ reg, ent.2 ≠ [] ∧
          ∃ y, e.1 = (joinP outDir manDirS ++ '/' :: ent.1) ++ '/' :: y := by
  intro reg
  induction reg with
  | nil => intro fs e h; exact Or.inl h
  | cons ent es ih =>
    intro fs e h
    rcases ih h with hin | ⟨ent2, hent2, hx⟩
    · rcases writeSection_files_mem hin with hfs | ⟨hne, hy⟩
      · exact Or.inl hfs
      · exact Or.inr ⟨ent, List.mem_cons_self _ _, hne, hy⟩
    · exact Or.inr ⟨ent2, List.mem_cons_of_mem _ hent2, hx⟩

/-- C5 counterexample: the recognized but empty section directory `man3`
registers zero pages, yet the run creates the directory
`out/_build/man/man3` in the output tree. -/
theorem c5_empty_section_counterexample :
    isOk c5Run = true ∧
    dirLoopPages c5Walk (str "3") = some [] ∧
    str "out/_build/man/man3" ∈ runDirs c5Run := by
  refine ⟨by decide, by decide, by decide⟩

/-- C5 amended: a section with zero discovered pages gets no rst-tree
directory `out/man/<sec>` and no `out/man/<sec>/index.rst` from the index
stage, but the intermediate fragment directory `out/_build/man/<dirname>`
is created as soon as the input section directory is recognized, even with
zero pages. -/
theorem c5_empty_section_skip :
    (∀ (outDir : Str) (reg : Registry) (fs : Fs) (sec : Str),
      ('/' : Char) ∉ sec →
      (∀ ent ∈ reg, ('/' : Char) ∉ ent.1) →
      (∀ ent ∈ reg, ent.1 = sec → ent.2 = []) →
      ((joinP (joinP outDir manDirS) sec ∈ (writeSections outDir reg fs).dirs →
          joinP (joinP outDir manDirS) sec ∈ fs.dirs) ∧
       ∀ e ∈ (writeSections outDir reg fs).files, e ∈ fs.files ∨
          e.1 ≠ joinP (joinP (joinP outDir manDirS) sec) (str "index.rst"))) ∧
    (isOk c5Run = true ∧
     dirLoopPages c5Walk (str "3") = some [] ∧
     str "out/_build/man/man3" ∈ runDirs c5Run ∧
     str "out/man/3" ∉ runDirs c5Run ∧
     readIsSome c5Run (str "out/man/3/index.rst") = false) := by
  constructor
  · intro outDir reg fs sec hsl hkeys hempty
    constructor
    · intro hd
      rcases writeSections_dirs_mem hd with hfs | ⟨ent, hent, hne, hd2⟩
      · exact hfs
      · exfalso
        have : ('/' : Char) :: ent.1 = '/' :: sec :=
          List.append_cancel_left (hd2.symm.trans rfl)
        have hes : ent.1 = sec := (List.cons.injEq .. ▸ this).2
        exact hne (hempty ent hent hes)
    · intro e he
      rcases writeSections_files_mem he with hfs | ⟨ent, hent, hne, y, hy⟩
      · exact Or.inl hfs
      · refine Or.inr ?_
        intro hcontra
        have heq : (joinP outDir manDirS ++ '/' :: ent.1) ++ '/' :: y =
            (joinP outDir manDirS ++ '/' :: sec) ++ '/' :: (str "index.rst") := by
          rw [← hy, hcontra]
          rfl
        rw [List.append_assoc, List.append_assoc] at heq
        have heq2 := List.append_cancel_left heq
        simp only [List.cons_append, List.cons.injEq] at heq2
        have hr := append_slash_inj (hkeys ent hent) hsl heq2.2
        exact hne (hempty ent hent hr.1)
  · refine ⟨by decide, by decide, by decide, by decide, by decide⟩

/-- C5 witness: a registry with section 3 empty and section 8 inhabited —
the index stage writes files for section 8 but neither the directory
`out/man/3` nor `out/man/3/index.rst`. -/
theorem c5_empty_section_skip_witness :
    (∀ ent ∈ regAppend initReg (str "8") [str "zpool.8"], ent.1 = str "3" → ent.2 = []) ∧
    ((joinP (joinP (str "out") manDirS) (str "3") ∈
        (writeSections (str "out") (regAppend initReg (str "8") [str "zpool.8"])
          (⟨[], []⟩ : Fs)).dirs →
        joinP (joinP (str "out") manDirS) (str "3") ∈ (⟨[], []⟩ : Fs).dirs) ∧
     ∀ e ∈ (writeSections (str "out") (regAppend initReg (str "8") [str "zpool.8"])
        (⟨[], []⟩ : Fs)).files, e ∈ (⟨[], []⟩ : Fs).files ∨
        e.1 ≠ joinP (joinP (joinP (str "out") manDirS) (str "3")) (str "index.rst")) :=
  ⟨by decide,
   c5_empty_section_skip.1 (str "out") (regAppend initReg (str "8") [str "zpool.8"])
     ⟨[], []⟩ (str "3") (by decide) (by decide) (by decide)⟩

/-! ### Output writes are a prefix determined by the input alone -/

theorem find?_append_some {α : Type} {l1 l2 : List α} {pred : α → Bool} {a : α}
    (h : l1.find? pred = some a) : (l1 ++ l2).find? pred = some a := by
  induction l1 with
  | nil => simp [List.find?] at h
  | cons x xs ih =>
    cases hx : pred x with
    | true =>
      rw [List.find?_cons_of_pos _ hx] at h
      rw [List.cons_append, List.find?_cons_of_pos _ hx]
      exact h
    | false =>
      rw [List.find?_cons_of_neg _ (by simp [hx])] at h
      rw [List.cons_append, List.find?_cons_of_neg _ (by simp [hx])]
      exact ih h

theorem find?_append_none {α : Type} {l1 l2 : List α} {pred : α → Bool}
    (h : l1.find? pred = none) : (l1 ++ l2).find? pred = l2.find? pred := by
  induction l1 with
  | nil => rfl
  | cons x xs ih =>
    cases hx : pred x with
    | true => rw [List.find?_cons_of_pos _ hx] at h; exact absurd h (by simp)
    | false =>
      rw [List.find?_cons_of_neg _ (by simp [hx])] at h
      rw [List.cons_append, List.find?_cons_of_neg _ (by simp [hx])]
      exact ih h

theorem mem_initReg {sec : Str} {ps : List Str} (h : (sec, ps) ∈ initReg) :
    ps = [] := by
  unfold initReg at h
  obtain ⟨c, -, hc⟩ := List.mem_map.mp h
  exact ((Prod.mk.injEq .. ▸ hc).2).symm

theorem regAppend_mem {reg : Registry} {num : Str} {newps : List Str}
    {sec : Str} {ps0 : List Str} (h : (sec, ps0) ∈ regAppend reg num newps) :
    ∃ l0, (sec, l0) ∈ reg ∧ (ps0 = l0 ∨ (sec = num ∧ ps0 = l0 ++ newps)) := by
  unfold regAppend at h
  obtain ⟨e, he, hmap⟩ := List.mem_map.mp h
  by_cases hkey : e.1 = num
  · rw [if_pos hkey] at hmap
    obtain ⟨h1, h2⟩ := Prod.mk.injEq .. ▸ hmap
    refine ⟨e.2, ?_, Or.inr ⟨h1 ▸ hkey, h2.symm⟩⟩
    rw [← h1]
    exact he
  · rw [if_neg hkey] at hmap
    exact ⟨ps0, hmap ▸ he, Or.inl rfl⟩

theorem pageLoop_shift {rend : Rend} {inDir d outSecDir num : Str} :
    ∀ {l : List Str} {fs : Fs} {acc : List Str} {fs2 : Fs} {ps2 : List Str},
      pageLoop rend inDir d outSecDir num l fs acc = .ok (fs2, ps2) →
      ∃ W newps,
        fs2.files = W ++ fs.files ∧ fs2.dirs = fs.dirs ∧ ps2 = acc ++ newps ∧
        (∀ (g : Fs) (acc2 : List Str),
          pageLoop rend inDir d outSecDir num l g acc2 =
            .ok (⟨W ++ g.files, g.dirs⟩, acc2 ++ newps)) ∧
        (∀ q ∈ newps, joinP outSecDir (q ++ str ".html") ∈ W.map Prod.fst) := by
  intro l
  induction l with
  | nil =>
    intro fs acc fs2 ps2 h
    obtain ⟨h1, h2⟩ := Prod.mk.injEq .. ▸ Except.ok.inj h
    refine ⟨[], [], by rw [← h1]; rfl, by rw [← h1], by rw [← h2, List.append_nil],
      ?_, by simp⟩
    intro g acc2
    simp [pageLoop]
  | cons q qs ih =>
    intro fs acc fs2 ps2 h
    simp only [pageLoop] at h
    by_cases hm : pageMatches num q = true
    · rw [if_pos hm] at h
      cases hr : rend (joinP (joinP inDir d) q) with
      | none => rw [hr] at h; exact absurd h (by simp)
      | some out =>
        rw [hr] at h
        dsimp only at h
        obtain ⟨W', newps', hf, hd2, hps, hgen, hmem⟩ := ih h
        refine ⟨W' ++ [(joinP outSecDir (strippedName q ++ str ".html"), out)],
          strippedName q :: newps', ?_, hd2, ?_, ?_, ?_⟩
        · rw [hf]
          simp [writeF]
        · rw [hps]
          simp
        · intro g acc2
          simp only [pageLoop]
          rw [if_pos hm, hr]
          dsimp only
          rw [hgen (writeF (joinP outSecDir (strippedName q ++ str ".html")) out g)
            (acc2 ++ [strippedName q])]
          refine congrArg _ ?_
          refine Prod.ext ?_ ?_
          · simp [writeF]
          · simp
        · intro x hx
          rcases List.mem_cons.mp hx with hhd | htl
          · subst hhd
            simp
          · have := hmem x htl
            simp only [List.map_append]
            exact List.mem_append_left _ this
    · rw [if_neg hm] at h
      obtain ⟨W', newps', hf, hd2, hps, hgen, hmem⟩ := ih h
      refine ⟨W', newps', hf, hd2, hps, ?_, hmem⟩
      intro g acc2
      simp only [pageLoop]
      rw [if_neg hm]
      exact hgen g acc2

theorem dirLoop_shift {rend : Rend} {tree : SrcTree} {inDir outDir : Str} :
    ∀ {l : List Str} {reg : Registry} {fs : Fs} {reg2 : Registry} {fs2 : Fs},
      dirLoop rend tree inDir outDir l reg fs = .ok (reg2, fs2) →
      ∃ W D,
        fs2.files = W ++ fs.files ∧ fs2.dirs = D ++ fs.dirs ∧
        (∀ g, dirLoop rend tree inDir outDir l reg g =
          .ok (reg2, ⟨W ++ g.files, D ++ g.dirs⟩)) ∧
        ((∀ x ∈ l, recognizedCode x ∈ sectionCodes →
            x = str "man" ++ recognizedCode x) →
          ∀ sec ps q, (sec, ps) ∈ reg2 → q ∈ ps →
            (∃ ps0, (sec, ps0) ∈ reg ∧ q ∈ ps0) ∨
              fragPath outDir sec q ∈ W.map Prod.fst) := by
  intro l
  induction l with
  | nil =>
    intro reg fs reg2 fs2 h
    obtain ⟨h1, h2⟩ := Prod.mk.injEq .. ▸ Except.ok.inj h
    refine ⟨[], [], by rw [← h2]; rfl, by rw [← h2]; rfl, ?_, ?_⟩
    · intro g
      rw [← h1]
      rfl
    · intro _ sec ps q hmem hq
      exact Or.inl ⟨ps, h1 ▸ hmem, hq⟩
  | cons d0 rest ih =>
    intro reg fs reg2 fs2 h
    simp only [dirLoop] at h
    by_cases hrec : recognizedCode d0 ∈ sectionCodes
    · rw [if_pos hrec] at h
      cases hp : pageLoop rend inDir d0 (joinP (joinP outDir buildDirS) d0)
          (recognizedCode d0) (tree.files d0)
          (mkdirF (joinP (joinP outDir buildDirS) d0) fs) [] with
      | error x => rw [hp] at h; exact absurd h (by simp)
      | ok pair =>
        obtain ⟨fsp, newps0⟩ := pair
        rw [hp] at h
        dsimp only at h
        obtain ⟨Wp, newps, hpf, hpd, hps0, hpgen, hpmem⟩ := pageLoop_shift hp
        have hnew : newps0 = newps := by simpa using hps0
        subst hnew
        obtain ⟨W', D', hf, hd2, hgen, hinv⟩ := ih h
        refine ⟨W' ++ Wp, D' ++ [joinP (joinP outDir buildDirS) d0], ?_, ?_, ?_, ?_⟩
        · rw [hf, hpf]
          simp [mkdirF]
        · rw [hd2, hpd]
          simp [mkdirF]
        · intro g
          simp only [dirLoop]
          rw [if_pos hrec]
          have hpg := hpgen (mkdirF (joinP (joinP outDir buildDirS) d0) g) []
          rw [hpg]
          dsimp only
          rw [List.nil_append]
          rw [hgen ⟨Wp ++ (mkdirF (joinP (joinP outDir buildDirS) d0) g).files,
            (mkdirF (joinP (joinP outDir buildDirS) d0) g).dirs⟩]
          simp [mkdirF]
        · intro hstd sec ps q hmem hq
          rcases hinv (fun x hx => hstd x (List.mem_cons_of_mem _ hx)) sec ps q hmem hq with
            ⟨ps0, hps0mem, hqm⟩ | hfragm
          · obtain ⟨l0, hl0, hcase⟩ := regAppend_mem hps0mem
            rcases hcase with hsame | ⟨hsec, happ⟩
            · exact Or.inl ⟨l0, hl0, hsame ▸ hqm⟩
            · rw [happ] at hqm
              rcases List.mem_append.mp hqm with hqold | hqnew
              · exact Or.inl ⟨l0, hl0, hqold⟩
              · refine Or.inr ?_
                have hfrag := hpmem q hqnew
                have hd0 : d0 = str "man" ++ recognizedCode d0 :=
                  hstd d0 (List.mem_cons_self _ _) hrec
                have hpath : joinP (joinP (joinP outDir buildDirS) d0)
                    (q ++ str ".html") = fragPath outDir sec q := by
                  rw [fragPath, hd0, ← hsec]
                rw [hpath] at hfrag
                simp only [List.map_append]
                exact List.mem_append_right _ hfrag
          · refine Or.inr ?_
            simp only [List.map_append]
            exact List.mem_append_left _ hfragm
    · rw [if_neg hrec] at h
      obtain ⟨W', D', hf, hd2, hgen, hinv⟩ := ih h
      refine ⟨W', D', hf, hd2, ?_, ?_⟩
      · intro g
        simp only [dirLoop]
        rw [if_neg hrec]
        exact hgen g
      · intro hstd
        exact hinv (fun x hx => hstd x (List.mem_cons_of_mem _ hx))

theorem writeStubs_shift (outDir sec : Str) :
    ∀ (ps : List Str), ∃ W, ∀ (g : Fs),
      writeStubs outDir sec ps g = ⟨W ++ g.files, g.dirs⟩ := by
  intro ps
  induction ps with
  | nil => exact ⟨[], fun g => rfl⟩
  | cons p ps ih =>
    obtain ⟨W', hW⟩ := ih
    refine ⟨W' ++ [(joinP (joinP (joinP outDir manDirS) sec) (p ++ str ".rst"),
      stubContent sec p)], fun g => ?_⟩
    show writeStubs outDir sec ps
      (writeF (joinP (joinP (joinP outDir manDirS) sec) (p ++ str ".rst"))
        (stubContent sec p) g) = _
    rw [hW]
    simp [writeF]

theorem writeSection_shift (outDir : Str) (ent : Str × List Str) :
    ∃ W D, ∀ (g : Fs), writeSection outDir g ent = ⟨W ++ g.files, D ++ g.dirs⟩ := by
  by_cases hemp : ent.2 = []
  · refine ⟨[], [], fun g => ?_⟩
    unfold writeSection
    rw [if_pos hemp]
    rfl
  · obtain ⟨Ws, hWs⟩ := writeStubs_shift outDir ent.1 ent.2
    refine ⟨Ws ++ [(joinP (joinP (joinP outDir manDirS) ent.1) (str "index.rst"),
      sectionIndexContent ent.1)], [joinP (joinP outDir manDirS) ent.1], fun g => ?_⟩
    unfold writeSection
    rw [if_neg hemp]
    dsimp only
    rw [hWs]
    simp [writeF, mkdirF]

theorem writeSections_shift (outDir : Str) :
    ∀ (reg : Registry), ∃ W D, ∀ (g : Fs),
      writeSections outDir reg g = ⟨W ++ g.files, D ++ g.dirs⟩ := by
  intro reg
  induction reg with
  | nil => exact ⟨[], [], fun g => rfl⟩
  | cons ent es ih =>
    obtain ⟨W', D', hW⟩ := ih
    obtain ⟨We, De, hE⟩ := writeSection_shift outDir ent
    refine ⟨W' ++ We, D' ++ De, fun g => ?_⟩
    show writeSections outDir es (writeSection outDir g ent) = _
    rw [hE g, hW ⟨We ++ g.files, De ++ g.dirs⟩]
    simp

theorem find?_path_isSome {P : List (Str × Str)} {p : Str}
    (h : p ∈ P.map Prod.fst) :
    ∃ e, P.find? (fun x => x.1 = p) = some e := by
  induction P with
  | nil => simp at h
  | cons x xs ih =>
    by_cases hx : x.1 = p
    · exact ⟨x, List.find?_cons_of_pos _ (by simpa using hx)⟩
    · rw [List.map_cons] at h
      rcases List.mem_cons.mp h with hh | hh
      · exact absurd hh.symm hx
      · obtain ⟨e, he⟩ := ih hh
        exact ⟨e, by rw [List.find?_cons_of_neg _ (by simpa using hx)]; exact he⟩

theorem hyperFile_shift {outDir : Str} {ap : List Str} {sec page : Str}
    {P : List (Str × Str)} (hmem : fragPath outDir sec page ∈ P.map Prod.fst) :
    ∃ P', (∀ x ∈ P.map Prod.fst, x ∈ P'.map Prod.fst) ∧
      ∀ (gF : List (Str × Str)) (gD : List Str),
        hyperFile outDir ap sec ⟨P ++ gF, gD⟩ page = .ok ⟨P' ++ gF, gD⟩ := by
  obtain ⟨e, he⟩ := find?_path_isSome hmem
  have hread : ∀ (gF : List (Str × Str)) (gD : List Str),
      readFs ⟨P ++ gF, gD⟩ (fragPath outDir sec page) = some e.2 := by
    intro gF gD
    unfold readFs
    dsimp only
    rw [find?_append_some he]
    rfl
  by_cases hc : subText ap e.2 = e.2
  · refine ⟨P, fun x hx => hx, fun gF gD => ?_⟩
    unfold hyperFile
    dsimp only
    rw [hread gF gD]
    dsimp only
    rw [if_pos hc]
  · refine ⟨(fragPath outDir sec page, subText ap e.2) :: P,
      fun x hx => List.mem_cons_of_mem _ hx, fun gF gD => ?_⟩
    unfold hyperFile
    dsimp only
    rw [hread gF gD]
    dsimp only
    rw [if_neg hc]
    rfl

theorem hyperPages_shift {outDir : Str} {ap : List Str} {sec : Str} :
    ∀ {ps : List Str} {P : List (Str × Str)},
      (∀ q ∈ ps, fragPath outDir sec q ∈ P.map Prod.fst) →
      ∃ P', (∀ x ∈ P.map Prod.fst, x ∈ P'.map Prod.fst) ∧
        ∀ (gF : List (Str × Str)) (gD : List Str),
          hyperPages outDir ap sec ps ⟨P ++ gF, gD⟩ = .ok ⟨P' ++ gF, gD⟩ := by
  intro ps
  induction ps with
  | nil =>
    intro P _
    exact ⟨P, fun x hx => hx, fun gF gD => rfl⟩
  | cons q qs ih =>
    intro P h
    obtain ⟨P1, hsup1, hgen1⟩ := hyperFile_shift (h q (List.mem_cons_self _ _))
    obtain ⟨P2, hsup2, hgen2⟩ :=
      ih (P := P1) (fun x hx => hsup1 _ (h x (List.mem_cons_of_mem _ hx)))
    refine ⟨P2, fun x hx => hsup2 _ (hsup1 _ hx), fun gF gD => ?_⟩
    simp only [hyperPages]
    rw [hgen1 gF gD]
    dsimp only
    exact hgen2 gF gD

theorem hyperSections_shift {outDir : Str} (ap : List Str) :
    ∀ {l : Registry} {P : List (Str × Str)},
      (∀ e2 ∈ l, ∀ q ∈ e2.2, fragPath outDir e2.1 q ∈ P.map Prod.fst) →
      ∃ P', (∀ x ∈ P.map Prod.fst, x ∈ P'.map Prod.fst) ∧
        ∀ (gF : List (Str × Str)) (gD : List Str),
          hyperSections outDir ap l ⟨P ++ gF, gD⟩ = .ok ⟨P' ++ gF, gD⟩ := by
  intro l
  induction l with
  | nil =>
    intro P _
    exact ⟨P, fun x hx => hx, fun gF gD => rfl⟩
  | cons e2 es ih =>
    intro P h
    obtain ⟨P1, hsup1, hgen1⟩ :=
      hyperPages_shift (P := P) (h e2 (List.mem_cons_self _ _))
    obtain ⟨P2, hsup2, hgen2⟩ := ih (P := P1)
      (fun x hx q hq => hsup1 _ (h x (List.mem_cons_of_mem _ hx) q hq))
    refine ⟨P2, fun x hx => hsup2 _ (hsup1 _ hx), fun gF gD => ?_⟩
    simp only [hyperSections]
    rw [hgen1 gF gD]
    dsimp only
    exact hgen2 gF gD

theorem run_shift {rend : Rend} {tree : SrcTree} {inDir outDir : Str} {fs fs' : Fs}
    (hstd : ∀ x ∈ tree.dirs, recognizedCode x ∈ sectionCodes →
      x = str "man" ++ recognizedCode x)
    (h : run rend tree inDir outDir fs = .ok fs') :
    ∃ W D, ∀ g, run rend tree inDir outDir g = .ok ⟨W ++ g.files, D ++ g.dirs⟩ := by
  unfold run at h
  cases hd : dirLoop rend tree inDir outDir tree.dirs initReg fs with
  | error e => rw [hd] at h; exact absurd h (by simp)
  | ok pair =>
    obtain ⟨reg, fs1⟩ := pair
    obtain ⟨Wd, Dd, hdf, hdd, hdgen, hdinv⟩ := dirLoop_shift hd
    have hreg : ∀ sec ps q, (sec, ps) ∈ reg → q ∈ ps →
        fragPath outDir sec q ∈ Wd.map Prod.fst := by
      intro sec ps q hm hq
      rcases hdinv hstd sec ps q hm hq with ⟨ps0, hps0, hq0⟩ | hW
      · rw [mem_initReg hps0] at hq0
        simp at hq0
      · exact hW
    obtain ⟨Ws, Ds, hsgen⟩ := writeSections_shift outDir reg
    have hmem4 : ∀ e2 ∈ reg, ∀ q ∈ e2.2, fragPath outDir e2.1 q ∈
        (Ws ++ (joinP (joinP outDir manDirS) (str "index.rst"), topIndexContent)
          :: Wd).map Prod.fst := by
      intro e2 he2 q hq
      have hwd : fragPath outDir e2.1 q ∈ Wd.map Prod.fst := by
        have := hreg e2.1 e2.2 q
        exact this (by rwa [Prod.mk.eta]) hq
      simp only [List.map_append, List.map_cons]
      exact List.mem_append_right _ (List.mem_cons_of_mem _ hwd)
    obtain ⟨P', hsup, hhgen⟩ := hyperSections_shift (allPages reg) hmem4
    refine ⟨P', Ds ++ joinP outDir manDirS :: Dd, fun g => ?_⟩
    unfold run
    rw [hdgen g]
    dsimp only
    rw [hsgen (writeF (joinP (joinP outDir manDirS) (str "index.rst"))
      topIndexContent (mkdirF (joinP outDir manDirS) ⟨Wd ++ g.files, Dd ++ g.dirs⟩))]
    have harg : (⟨Ws ++ (writeF (joinP (joinP outDir manDirS) (str "index.rst"))
        topIndexContent (mkdirF (joinP outDir manDirS)
          ⟨Wd ++ g.files, Dd ++ g.dirs⟩)).files,
        Ds ++ (writeF (joinP (joinP outDir manDirS) (str "index.rst"))
        topIndexContent (mkdirF (joinP outDir manDirS)
          ⟨Wd ++ g.files, Dd ++ g.dirs⟩)).dirs⟩ : Fs) =
        ⟨(Ws ++ (joinP (joinP outDir manDirS) (str "index.rst"), topIndexContent)
            :: Wd) ++ g.files,
          Ds ++ joinP outDir manDirS :: (Dd ++ g.dirs)⟩ := by
      simp [writeF, mkdirF]
    rw [harg]
    show hyperSections outDir (allPages reg) reg _ = _
    rw [hhgen g.files (Ds ++ joinP outDir manDirS :: (Dd ++ g.dirs))]
    simp

/-- C7: with a deterministic total renderer and a standard input layout
(every recognized subdirectory is literally `man` followed by its code),
running the tool a second time on the unchanged tree leaves every path
reading identically: the generated fragments, indexes and stubs of the
second run are byte-for-byte those of the first. -/
theorem c7_idempotent (rend : Rend) (tree : SrcTree) (inDir outDir : Str)
    (fs0 fs1 fs2 : Fs)
    (hstd : ∀ x ∈ tree.dirs, recognizedCode x ∈ sectionCodes →
      x = str "man" ++ recognizedCode x)
    (h1 : run rend tree inDir outDir fs0 = .ok fs1)
    (h2 : run rend tree inDir outDir fs1 = .ok fs2) :
    ∀ p, readFs fs2 p = readFs fs1 p := by
  obtain ⟨W, D, hgen⟩ := run_shift hstd h1
  have e1 : fs1 = ⟨W ++ fs0.files, D ++ fs0.dirs⟩ := Except.ok.inj (h1.symm.trans (hgen fs0))
  have e2 : fs2 = ⟨W ++ fs1.files, D ++ fs1.dirs⟩ := Except.ok.inj (h2.symm.trans (hgen fs1))
  intro p
  rw [e2]
  unfold readFs
  dsimp only
  cases hw : W.find? (fun e => e.1 = p) with
  | some a =>
    rw [find?_append_some hw]
    have hr1 : fs1.files.find? (fun e => e.1 = p) = some a := by
      rw [e1]
      dsimp only
      rw [find?_append_some hw]
    rw [hr1]
  | none =>
    rw [find?_append_none hw]

set_option maxRecDepth 8000 in
/-- C7 witness: the two-page tree run twice from the empty state; the
rewritten fragment of `zpool.8` reads the same after both runs. -/
theorem c7_idempotent_witness :
    run c7Rend c7Tree (str "in") (str "out") ⟨[], []⟩ = .ok c7Fs1 ∧
    run c7Rend c7Tree (str "in") (str "out") c7Fs1 = .ok c7Fs2 ∧
    readFs c7Fs2 (fragPath (str "out") (str "8") (str "zpool.8")) =
      readFs c7Fs1 (fragPath (str "out") (str "8") (str "zpool.8")) :=
  ⟨by decide, by decide,
   c7_idempotent c7Rend c7Tree (str "in") (str "out") ⟨[], []⟩ c7Fs1 c7Fs2
     (by decide) (by decide) (by decide) _⟩

/-- C8 amended witness: an unknown plain name `zzz` inside surrounding text
is left untouched by the registry `{8: [zpool.8]}`. -/
theorem c8_unknown_not_rewritten_witness :
    str "zzz" ∉ allPages c1Reg ∧
    subText (allPages c1Reg)
        (str "see " ++ (anchorXr (str " title=\"y\"") (str "zzz") '8' ++ str " end.")) =
      str "see " ++ (anchorXr (str " title=\"y\"") (str "zzz") '8' ++ str " end.") :=
  ⟨by decide,
   c8_unknown_not_rewritten (str "see ") (str " title=\"y\"") (str "zzz") '8'
     (str " end.") c1Reg (by decide) (by decide) (by decide) (by decide)
     (by decide) (by decide) (by decide)⟩

end ManPages
